import Mathlib

/-!
Verification of the batch analysis & ranking pipeline of the CV-Analyzer
dashboard (`src/app.py`, "Batch Analyse" page, lines 350-515), against its
natural-language specification.

The embedding models:
* the per-document analysis loop with failure isolation (lines 388-405),
* the overview-table construction (lines 415-424),
* ranking and top-candidate selection (lines 432-445),
* the multi-sheet spreadsheet assembly (lines 474-492),
* the JSON batch export `json.dumps(all_results, indent=2)` (line 465)
  together with a model of Python's `json.loads` for the round-trip claim,
* temporary-file creation and the `finally` cleanup (lines 368-375, 511-515),
* the transient `batch_analysis.xlsx` lifecycle (lines 474-505).

The external `CVAnalyzer` is kept opaque: analyses are an arbitrary function
into `Except`, exactly as the page only observes success (a result record) or
an exception. Python dicts of analysis results are modelled two ways, each
faithful to how the page accesses them: a typed record (`AnalysisResult`) for
the overview/ranking/export-sheet logic, which reads a fixed set of keys with
`dict.get` defaults, and a JSON value tree (`Json`) for the raw
`json.dumps`/`json.loads` export, which serialises whatever the analyzer
returned. Numbers in the JSON tree are integers; scores and durations in the
typed model are rationals (float rounding is outside the model's scope).
-/

namespace CVApp

/-! ## Typed data model of an analysis result

One entry of a result's `experience` list. The page reads `start_date`,
`end_date` (dates, modelled as day numbers) on the single-CV page and
`exp.get("duration", 0)` (years, a number) in the batch overview; `title` and
`company` feed the timeline/experience tables. Absent dict keys are `none`. -/
structure ExpEntry where
  title : Option String := none
  company : Option String := none
  start_date : Option Int := none
  end_date : Option Int := none
  duration : Option ℚ := none
deriving DecidableEq

/-- An analysis result as the batch page reads it: a dict whose keys are
accessed with `result.get(key, default)` or `key in result` checks. The
`filename` key is never produced by the analyzer; the orchestrator injects it
(line 400). -/
structure AnalysisResult where
  filename : Option String := none
  profession : Option String := none
  experience_level : Option String := none
  relevance_score : Option ℚ := none
  skills : Option (List (String × ℚ)) := none
  experience : Option (List ExpEntry) := none
  missing_skills : Option (List (String × ℚ)) := none
  recommendations : Option (List String) := none
deriving DecidableEq

/-- One row of `overview_data` (lines 417-424). Field names transliterate the
German column names: `Dateiname`, `Beruf`, `Erfahrungslevel`,
`Relevanz-Score`, `Anzahl Fähigkeiten`, `Berufserfahrung (Jahre)`. -/
structure OverviewRow where
  dateiname : String
  beruf : String
  erfahrungslevel : String
  relevanz_score : ℚ
  anzahl_faehigkeiten : Nat
  berufserfahrung_jahre : ℚ
deriving DecidableEq

/-- Line 417-424: the overview row of one result. `Berufserfahrung (Jahre)` is
`sum(exp.get("duration", 0) for exp in result.get("experience", []))`, a fold
over the entries' `duration` fields — the dates are not consulted here. -/
def overview_row (result : AnalysisResult) : OverviewRow where
  dateiname := result.filename.getD "Unbekannt"
  beruf := result.profession.getD "Nicht erkannt"
  erfahrungslevel := result.experience_level.getD "Nicht erkannt"
  relevanz_score := result.relevance_score.getD 0
  anzahl_faehigkeiten := (result.skills.getD []).length
  berufserfahrung_jahre :=
    (result.experience.getD []).foldl (fun acc exp => acc + exp.duration.getD 0) 0

/-- Lines 415-427: `overview_data`, one row per result in `all_results`. -/
def overview_data (all_results : List AnalysisResult) : List OverviewRow :=
  all_results.map overview_row

/-- Formalisation of the SPEC'S words for comparison (not of the code):
"total experience years = sum over `experience` entries of each entry's
duration in years, computed as `(end_date − start_date)` in days divided by
365.25". -/
def spec_experience_years (result : AnalysisResult) : ℚ :=
  ((result.experience.getD []).map
    (fun exp => ((exp.end_date.getD 0 - exp.start_date.getD 0 : Int) : ℚ) / 365.25)).sum

/-! ## Batch loop (lines 388-405)

The loop walks `temp_files` in order; a successful `analyze_cv_file` call has
the original filename attached to its result, which is appended to
`all_results`; a failing call appends an error entry with context
`batch_analysis_<filename>` to the error log and the loop continues. The
analyzer is an opaque function into `Except`; `inject` is the
`result["filename"] = original_name` step, kept abstract so the loop is
stated once for the typed and the JSON representation of results. -/
def batch_loop {α ρ : Type} (analyze : α → Except String ρ) (inject : ρ → String → ρ)
    (temp_files : List (α × String)) : List ρ × List String :=
  temp_files.foldl
    (fun acc pn =>
      match analyze pn.1 with
      | .ok result => (acc.1 ++ [inject result pn.2], acc.2)
      | .error _ => (acc.1, acc.2 ++ ["batch_analysis_" ++ pn.2]))
    ([], [])

/-- Whether the analysis of one `(temp_path, original_name)` pair fails. -/
def analysis_failed {α ρ : Type} (analyze : α → Except String ρ) (pn : α × String) : Bool :=
  match analyze pn.1 with
  | .ok _ => false
  | .error _ => true

/-- The successful outcome of one pair, with the filename injected. -/
def success_result {α ρ : Type} (analyze : α → Except String ρ) (inject : ρ → String → ρ)
    (pn : α × String) : Option ρ :=
  match analyze pn.1 with
  | .ok result => some (inject result pn.2)
  | .error _ => none

theorem batch_loop_spec {α ρ : Type} (analyze : α → Except String ρ)
    (inject : ρ → String → ρ) (temp_files : List (α × String)) (res : List ρ)
    (errs : List String) :
    temp_files.foldl
      (fun acc pn =>
        match analyze pn.1 with
        | .ok result => (acc.1 ++ [inject result pn.2], acc.2)
        | .error _ => (acc.1, acc.2 ++ ["batch_analysis_" ++ pn.2]))
      (res, errs)
    = (res ++ temp_files.filterMap (success_result analyze inject),
       errs ++ (temp_files.filter (analysis_failed analyze)).map
         (fun pn => "batch_analysis_" ++ pn.2)) := by
  induction temp_files generalizing res errs with
  | nil => simp
  | cons pn rest ih =>
    simp only [List.foldl_cons, List.filterMap_cons, List.filter_cons]
    cases h : analyze pn.1 with
    | ok result =>
      simp only [ih, success_result, analysis_failed, h]
      simp
    | error e =>
      simp only [ih, success_result, analysis_failed, h]
      simp

theorem batch_loop_counts {α ρ : Type} (analyze : α → Except String ρ)
    (inject : ρ → String → ρ) (temp_files : List (α × String)) :
    (temp_files.filterMap (success_result analyze inject)).length
      + temp_files.countP (analysis_failed analyze) = temp_files.length := by
  induction temp_files with
  | nil => simp
  | cons pn rest ih =>
    cases h : analyze pn.1 with
    | ok result =>
      have h1 : success_result analyze inject pn = some (inject result pn.2) := by
        simp [success_result, h]
      have h2 : analysis_failed analyze pn = false := by
        simp [analysis_failed, h]
      simp only [List.filterMap_cons, List.countP_cons, h1, h2, List.length_cons,
        Bool.false_eq_true, if_false]
      omega
    | error e =>
      have h1 : success_result analyze inject pn = none := by
        simp [success_result, h]
      have h2 : analysis_failed analyze pn = true := by
        simp [analysis_failed, h]
      simp only [List.filterMap_cons, List.countP_cons, h1, h2, List.length_cons, if_true]
      omega

/-- C1: for a batch of `N = temp_files.length` documents of which
`M = countP (analysis_failed ...)` fail, the result sequence is exactly the
in-order `filterMap` of the successful analyses (one entry per non-failing
input, in relative input order, filename injected), its length is `N − M`,
and every one of the `M` failures is logged and processing continues — the
error log has exactly `M` entries, so no failure aborts the loop. -/
theorem c1_batch_failure_isolation {α ρ : Type} (analyze : α → Except String ρ)
    (inject : ρ → String → ρ) (temp_files : List (α × String)) :
    (batch_loop analyze inject temp_files).1
        = temp_files.filterMap (success_result analyze inject)
      ∧ (batch_loop analyze inject temp_files).1.length
        = temp_files.length - temp_files.countP (analysis_failed analyze)
      ∧ (batch_loop analyze inject temp_files).2.length
        = temp_files.countP (analysis_failed analyze) := by
  have hs := batch_loop_spec analyze inject temp_files [] []
  have hc := batch_loop_counts analyze inject temp_files
  unfold batch_loop
  rw [hs]
  refine ⟨by simp, ?_, by simp [← List.countP_eq_length_filter]⟩
  simp only [List.nil_append]
  omega

/-! ## C2: total experience years in the overview row -/

theorem foldl_duration_sum (l : List ExpEntry) (a : ℚ) :
    l.foldl (fun acc exp => acc + exp.duration.getD 0) a
      = a + (l.map (fun exp => exp.duration.getD 0)).sum := by
  induction l generalizing a with
  | nil => simp
  | cons e rest ih => simp [ih, add_assoc]

/-- Concrete result refuting C2: one experience entry spanning 1461 days
(four 365.25-day years) with no `duration` key. -/
def c2_cex : AnalysisResult :=
  { experience := some [{ start_date := some 0, end_date := some 1461 }] }

/-- C2 counterexample: the batch overview sums the entries' `duration` fields
(lines 422-423), not `(end_date − start_date) / 365.25` as the claim states.
On an entry spanning 1461 days with no `duration` key the code yields 0 while
the claimed formula yields 4. -/
theorem c2_counterexample :
    (overview_row c2_cex).berufserfahrung_jahre ≠ spec_experience_years c2_cex
      ∧ (overview_row c2_cex).berufserfahrung_jahre = 0
      ∧ spec_experience_years c2_cex = 4 := by
  refine ⟨?_, ?_, ?_⟩ <;>
    norm_num [overview_row, spec_experience_years, c2_cex]

/-- A result with no experience entries. -/
def c2_no_experience : AnalysisResult := {}

/-- A result with a single experience entry whose `duration` field is 1.0. -/
def c2_one_year : AnalysisResult := { experience := some [{ duration := some 1 }] }

/-- C2 amended: the overview row's total experience years equals the sum over
the result's experience entries of each entry's `duration` field (0 when the
field is absent), as supplied by the analyzer; a result with no experience
entries yields 0, and a single entry whose `duration` field is 1.0 yields
1.0. -/
theorem c2_amended :
    (∀ result : AnalysisResult,
      (overview_row result).berufserfahrung_jahre
        = ((result.experience.getD []).map (fun exp => exp.duration.getD 0)).sum)
      ∧ (overview_row c2_no_experience).berufserfahrung_jahre = 0
      ∧ (overview_row c2_one_year).berufserfahrung_jahre = 1 := by
  refine ⟨fun result => ?_, ?_, ?_⟩
  · simp [overview_row, foldl_duration_sum]
  · simp [overview_row, c2_no_experience]
  · simp [overview_row, c2_one_year, foldl_duration_sum]

/-! ## Ranking (lines 432-441) and top candidates (line 445)

`overview_df.sort_values("Relevanz-Score", ascending=False)` sorts the
overview rows by score, descending, using pandas' default `kind="quicksort"`
(numpy introsort). The model below is an insertion sort by the same key; it
produces a descending reordering of the rows, but the tie order of the real
`sort_values` call is the tie order of numpy's introsort, which is not
reproduced here — no theorem below depends on the tie order. -/
def desc_insert (row : OverviewRow) : List OverviewRow → List OverviewRow
  | [] => [row]
  | x :: xs =>
      if x.relevanz_score ≤ row.relevanz_score then row :: x :: xs
      else x :: desc_insert row xs

/-- Model of `sort_values("Relevanz-Score", ascending=False)` on the overview
rows (line 436), up to tie order (see `desc_insert`). -/
def sort_values_desc : List OverviewRow → List OverviewRow
  | [] => []
  | x :: xs => desc_insert x (sort_values_desc xs)

/-- Lines 436-438: the ranking table is the overview sorted by score
descending (the 1-based re-index is display only: row `i` of the list is
shown with index `i+1`). -/
def ranking_table (rows : List OverviewRow) : List OverviewRow :=
  sort_values_desc rows

/-- Line 445: `top_candidates = ranking_df.head(min(3, len(ranking_df)))`. -/
def top_candidates_sel (ranking : List OverviewRow) : List OverviewRow :=
  ranking.take (min 3 ranking.length)

theorem desc_insert_length (row : OverviewRow) (l : List OverviewRow) :
    (desc_insert row l).length = l.length + 1 := by
  induction l with
  | nil => rfl
  | cons x xs ih =>
    simp only [desc_insert]
    split <;> simp [ih]

theorem sort_values_desc_length (rows : List OverviewRow) :
    (sort_values_desc rows).length = rows.length := by
  induction rows with
  | nil => rfl
  | cons x xs ih => simp [sort_values_desc, desc_insert_length, ih]

/-- C5: the top-candidates subset is the first `min(3, row_count)` rows of the
ranking table; it never has more than 3 entries and never more than the
number of available results (`min 3 2 = 2`, so with 2 results exactly 2 are
selected). -/
theorem c5_top_candidates (rows : List OverviewRow) :
    top_candidates_sel (ranking_table rows)
        = (ranking_table rows).take (min 3 rows.length)
      ∧ (top_candidates_sel (ranking_table rows)).length = min 3 rows.length
      ∧ (top_candidates_sel (ranking_table rows)).length ≤ 3
      ∧ (top_candidates_sel (ranking_table rows)).length ≤ rows.length := by
  have hlen : (ranking_table rows).length = rows.length := sort_values_desc_length rows
  refine ⟨by rw [top_candidates_sel, hlen], ?_, ?_, ?_⟩ <;>
    simp only [top_candidates_sel, List.length_take, hlen] <;> omega

/-! ## Multi-sheet spreadsheet assembly (lines 474-492)

The writer receives the overview sheet `"Übersicht"` first, then for each
result (0-based position `i` in `all_results`) a sheet
`"Kandidat_{i+1}_Skills"` when `"skills" in result and result["skills"]` is
truthy, and a sheet `"Kandidat_{i+1}_Erfahrung"` when
`"experience" in result and result["experience"]` is truthy. -/
inductive SheetData where
  | overview (rows : List OverviewRow)
  | skills (rows : List (String × ℚ))
  | experience (rows : List ExpEntry)
deriving DecidableEq

/-- Line 480: `"skills" in result and result["skills"]` — the key is present
and maps to a non-empty dict. -/
def has_skills (result : AnalysisResult) : Bool :=
  match result.skills with
  | some l => !l.isEmpty
  | none => false

/-- Line 488: `"experience" in result and result["experience"]`. -/
def has_experience (result : AnalysisResult) : Bool :=
  match result.experience with
  | some l => !l.isEmpty
  | none => false

/-- Lines 478-490: the sheets contributed by the candidate at 0-based
position `i` (sheet names use the 1-based index `i+1`). -/
def candidate_sheets (i : Nat) (result : AnalysisResult) : List (String × SheetData) :=
  (if has_skills result then
      [("Kandidat_" ++ Nat.repr (i + 1) ++ "_Skills", SheetData.skills (result.skills.getD []))]
    else [])
    ++ (if has_experience result then
      [("Kandidat_" ++ Nat.repr (i + 1) ++ "_Erfahrung",
        SheetData.experience (result.experience.getD []))]
    else [])

/-- Lines 474-492: the full sheet sequence handed to the Excel writer, in
write order. -/
def excel_sheets (all_results : List AnalysisResult) : List (String × SheetData) :=
  ("Übersicht", SheetData.overview (overview_data all_results))
    :: (all_results.enum.flatMap fun ir => candidate_sheets ir.1 ir.2)

theorem candidate_sheets_length (i : Nat) (result : AnalysisResult) :
    (candidate_sheets i result).length
      = (if has_skills result then 1 else 0) + (if has_experience result then 1 else 0) := by
  unfold candidate_sheets
  cases has_skills result <;> cases has_experience result <;> simp

theorem enumFrom_candidate_sheets_length (n : Nat) (rs : List AnalysisResult) :
    ((List.enumFrom n rs).flatMap fun ir => candidate_sheets ir.1 ir.2).length
      = rs.countP has_skills + rs.countP has_experience := by
  induction rs generalizing n with
  | nil => simp
  | cons r rest ih =>
    simp only [List.enumFrom, List.flatMap_cons, List.length_append, ih,
      candidate_sheets_length, List.countP_cons]
    cases has_skills r <;> cases has_experience r <;> simp <;> omega

/-- C6: the spreadsheet export has exactly `1 + S + E` sheets, where `S`
(resp. `E`) is the number of results with a non-empty skills mapping (resp. a
non-empty experience sequence): one overview sheet plus one skills sheet per
result with skills plus one experience sheet per result with experience. -/
theorem c6_sheet_count (all_results : List AnalysisResult) :
    (excel_sheets all_results).length
      = 1 + all_results.countP has_skills + all_results.countP has_experience := by
  have h := enumFrom_candidate_sheets_length 0 all_results
  simp only [excel_sheets, List.length_cons, List.enum]
  omega

/-- Membership of the `i`-th result's indexed entry in `enumFrom`. -/
theorem mem_enumFrom_of_lt (rs : List AnalysisResult) (n i : Nat) (h : i < rs.length) :
    (n + i, rs.get ⟨i, h⟩) ∈ List.enumFrom n rs := by
  induction rs generalizing n i with
  | nil => simp at h
  | cons r rest ih =>
    cases i with
    | zero => simp [List.enumFrom]
    | succ j =>
      have hj : j < rest.length := by simpa using h
      have := ih (n + 1) j hj
      simp only [List.enumFrom, List.mem_cons]
      right
      simpa [Nat.add_assoc, Nat.add_comm 1 j] using this

/-- Concrete result used to refute C7's sheet names. -/
def c7_result : AnalysisResult :=
  { skills := some [("Python", 80)],
    experience := some [{ title := some "Dev", company := some "ACME" }] }

/-- C7 counterexample: the code names the sheets in German — `"Übersicht"`,
`"Kandidat_<i>_Skills"`, `"Kandidat_<i>_Erfahrung"` (lines 475, 485, 490) —
not `"Overview"`, `"Candidate_<i>_Skills"`, `"Candidate_<i>_Experience"` as
the claim states. -/
theorem c7_counterexample :
    (excel_sheets [c7_result]).map Prod.fst
        = ["Übersicht", "Kandidat_1_Skills", "Kandidat_1_Erfahrung"]
      ∧ (excel_sheets [c7_result]).map Prod.fst
        ≠ ["Overview", "Candidate_1_Skills", "Candidate_1_Experience"]
      ∧ ((excel_sheets [c7_result]).map Prod.fst).head? ≠ some "Overview" := by
  refine ⟨by decide, by decide, by decide⟩

/-- C7 amended: the overview sheet is named `"Übersicht"` and the
per-candidate sheets are named deterministically
`Kandidat_<1-based index>_Skills` and `Kandidat_<1-based index>_Erfahrung`,
where the index is the 1-based position of the result in the
successful-result sequence: the sheet list starts with the overview sheet,
and for every position `i` with skills (resp. experience) the correspondingly
named sheet carrying that result's skills (resp. experience) table is in the
sheet list. -/
theorem c7_amended (rs : List AnalysisResult) (i : Nat) (h : i < rs.length) :
    (excel_sheets rs).head?
        = some ("Übersicht", SheetData.overview (overview_data rs))
      ∧ (has_skills (rs.get ⟨i, h⟩) →
          ("Kandidat_" ++ Nat.repr (i + 1) ++ "_Skills",
            SheetData.skills ((rs.get ⟨i, h⟩).skills.getD [])) ∈ excel_sheets rs)
      ∧ (has_experience (rs.get ⟨i, h⟩) →
          ("Kandidat_" ++ Nat.repr (i + 1) ++ "_Erfahrung",
            SheetData.experience ((rs.get ⟨i, h⟩).experience.getD [])) ∈ excel_sheets rs) := by
  have hmem : (i, rs.get ⟨i, h⟩) ∈ List.enumFrom 0 rs := by
    simpa using mem_enumFrom_of_lt rs 0 i h
  refine ⟨rfl, fun hs => ?_, fun he => ?_⟩
  · simp only [excel_sheets, List.mem_cons, List.mem_flatMap, List.enum]
    right
    refine ⟨(i, rs.get ⟨i, h⟩), hmem, ?_⟩
    simp only [List.get_eq_getElem] at hs
    simp [candidate_sheets, hs]
  · simp only [excel_sheets, List.mem_cons, List.mem_flatMap, List.enum]
    right
    refine ⟨(i, rs.get ⟨i, h⟩), hmem, ?_⟩
    simp only [List.get_eq_getElem] at he
    simp [candidate_sheets, he]

/-- Witness data for `c7_amended`. -/
def c7_witness_rs : List AnalysisResult := [c7_result]

theorem c7_amended_witness :
    0 < c7_witness_rs.length
      ∧ ((excel_sheets c7_witness_rs).head?
          = some ("Übersicht", SheetData.overview (overview_data c7_witness_rs))
        ∧ (has_skills (c7_witness_rs.get ⟨0, by decide⟩) →
            ("Kandidat_" ++ Nat.repr 1 ++ "_Skills",
              SheetData.skills ((c7_witness_rs.get ⟨0, by decide⟩).skills.getD []))
              ∈ excel_sheets c7_witness_rs)
        ∧ (has_experience (c7_witness_rs.get ⟨0, by decide⟩) →
            ("Kandidat_" ++ Nat.repr 1 ++ "_Erfahrung",
              SheetData.experience ((c7_witness_rs.get ⟨0, by decide⟩).experience.getD []))
              ∈ excel_sheets c7_witness_rs)) :=
  ⟨by decide, c7_amended c7_witness_rs 0 (by decide)⟩

/-! ## Temporary files of a batch (lines 368-375 and 511-515)

The filesystem is modelled as the list of present path names together with a
log of the `os.unlink` calls performed. The creation loop (lines 372-375)
runs `tempfile.NamedTemporaryFile(delete=False)` — which creates the file on
disk — then writes the upload's bytes and appends `(tmp.name, original_name)`
to `temp_files`. The write can raise (it sits inside the page-level `try`),
in which case the file exists on disk but is not recorded; the exception
aborts the loop and control reaches the `finally` block, which unlinks
exactly the recorded paths, each guarded by `os.path.exists`. The analysis
loop and the export block perform no operation on the temp files (the
transient spreadsheet is a different, fixed path, modelled separately), so
whether the body succeeded or raised does not change the temp files' fate. -/
structure FsState where
  files : List String
  unlinked : List String
deriving DecidableEq

/-- Lines 513-515: `if os.path.exists(temp_path): os.unlink(temp_path)`. -/
def unlink_if_exists (fs : FsState) (path : String) : FsState :=
  if path ∈ fs.files then
    { files := fs.files.erase path, unlinked := fs.unlinked ++ [path] }
  else fs

/-- Outcome of one iteration of the creation loop for one upload: the write
of the upload's bytes either completes or raises after the OS file was
created. -/
inductive CreateOutcome where
  | completed
  | write_failed
deriving DecidableEq

/-- Lines 372-375: files created on disk versus paths recorded in
`temp_files`, for a given sequence of (fresh temp path, outcome) pairs. A
`write_failed` outcome creates its file, records nothing, and aborts the
loop (the exception propagates to the page's `except`/`finally`). -/
def create_temp_files : List (String × CreateOutcome) → List String × List String
  | [] => ([], [])
  | (path, CreateOutcome.completed) :: rest =>
      let pr := create_temp_files rest
      (path :: pr.1, path :: pr.2)
  | (path, CreateOutcome.write_failed) :: _ => ([path], [])

/-- One whole batch invocation as seen by the temp-file namespace: create
(possibly aborting mid-way), run the body (no temp-file effect, success or
batch-level exception alike), then the unconditional `finally` cleanup over
the recorded `temp_files`. -/
def run_batch_files (fs0 : List String) (uploads : List (String × CreateOutcome)) : FsState :=
  let cr := create_temp_files uploads
  cr.2.foldl unlink_if_exists { files := cr.1 ++ fs0, unlinked := [] }

/-- Uploads refuting C3: the second upload's write raises after its temp file
was created. -/
def c3_uploads : List (String × CreateOutcome) :=
  [("tmp0", CreateOutcome.completed), ("tmp1", CreateOutcome.write_failed),
   ("tmp2", CreateOutcome.completed)]

/-- C3 counterexample: if the byte-write of an upload raises after
`NamedTemporaryFile(delete=False)` created the file but before the path is
appended to `temp_files` (lines 373-375), the file is created for an uploaded
document yet survives the batch — the `finally` block only unlinks recorded
paths. Here `tmp1` is created, the batch raises, and `tmp1` is still present
afterwards while only `tmp0` was unlinked. -/
theorem c3_counterexample :
    (create_temp_files c3_uploads).1 = ["tmp0", "tmp1"]
      ∧ "tmp1" ∈ (run_batch_files [] c3_uploads).files
      ∧ (run_batch_files [] c3_uploads).unlinked = ["tmp0"] := by
  refine ⟨by decide, by decide, by decide⟩

theorem cleanup_count_of_not_mem (rec : List String) (fs : FsState) (p : String)
    (hp : p ∉ rec) :
    (rec.foldl unlink_if_exists fs).files.count p = fs.files.count p
      ∧ (rec.foldl unlink_if_exists fs).unlinked.count p = fs.unlinked.count p := by
  induction rec generalizing fs with
  | nil => exact ⟨rfl, rfl⟩
  | cons q rest ih =>
    have hpq : p ≠ q := fun h => hp (h ▸ List.mem_cons_self q rest)
    have hprest : p ∉ rest := fun h => hp (List.mem_cons_of_mem q h)
    have := ih (unlink_if_exists fs q) hprest
    simp only [List.foldl_cons]
    refine ⟨?_, ?_⟩
    · rw [this.1]
      unfold unlink_if_exists
      split
      · simp [List.count_erase_of_ne hpq]
      · rfl
    · rw [this.2]
      unfold unlink_if_exists
      split
      · simp [List.count_cons, hpq]
      · rfl

theorem cleanup_removes_once (rec : List String) (fs : FsState) (p : String)
    (hnd : rec.Nodup) (hp : p ∈ rec) (hc : fs.files.count p = 1) :
    (rec.foldl unlink_if_exists fs).files.count p = 0
      ∧ (rec.foldl unlink_if_exists fs).unlinked.count p = fs.unlinked.count p + 1 := by
  induction rec generalizing fs with
  | nil => simp at hp
  | cons q rest ih =>
    simp only [List.foldl_cons]
    rcases List.mem_cons.mp hp with rfl | hprest
    · have hpmem : p ∈ fs.files := by
        have := List.count_pos_iff.mp (by omega : 0 < fs.files.count p)
        exact this
      have hnotrest : p ∉ rest := (List.nodup_cons.mp hnd).1
      have hstep : unlink_if_exists fs p
          = { files := fs.files.erase p, unlinked := fs.unlinked ++ [p] } := by
        unfold unlink_if_exists
        simp [hpmem]
      rw [hstep]
      have h2 := cleanup_count_of_not_mem rest
        { files := fs.files.erase p, unlinked := fs.unlinked ++ [p] } p hnotrest
      refine ⟨?_, ?_⟩
      · rw [h2.1]
        simp [List.count_erase_self, hc]
      · rw [h2.2]
        simp
    · have hpq : p ≠ q := by
        rintro rfl
        exact (List.nodup_cons.mp hnd).1 hprest
      have hcount : (unlink_if_exists fs q).files.count p = 1 := by
        unfold unlink_if_exists
        split
        · simp [List.count_erase_of_ne hpq, hc]
        · exact hc
      have hunl : (unlink_if_exists fs q).unlinked.count p = fs.unlinked.count p := by
        unfold unlink_if_exists
        split
        · simp [List.count_cons, hpq]
        · rfl
      have := ih (unlink_if_exists fs q) (List.nodup_cons.mp hnd).2 hprest hcount
      exact ⟨this.1, by rw [this.2, hunl]⟩

theorem create_temp_files_sublists (uploads : List (String × CreateOutcome)) :
    (create_temp_files uploads).2.Sublist (create_temp_files uploads).1
      ∧ (create_temp_files uploads).1.Sublist (uploads.map Prod.fst) := by
  induction uploads with
  | nil => exact ⟨List.Sublist.refl _, List.Sublist.refl _⟩
  | cons u rest ih =>
    obtain ⟨p, o⟩ := u
    cases o with
    | completed =>
      simp only [create_temp_files]
      exact ⟨(ih.1).cons₂ p, by simpa using (ih.2).cons₂ p⟩
    | write_failed =>
      simp only [create_temp_files]
      constructor
      · exact List.nil_sublist _
      · rw [List.map_cons]
        exact List.Sublist.cons₂ p (List.nil_sublist _)

theorem create_temp_files_all_completed (uploads : List (String × CreateOutcome))
    (hall : ∀ u ∈ uploads, u.2 = CreateOutcome.completed) :
    (create_temp_files uploads).1 = (create_temp_files uploads).2 := by
  induction uploads with
  | nil => rfl
  | cons u rest ih =>
    obtain ⟨p, o⟩ := u
    have ho : o = CreateOutcome.completed := hall (p, o) (List.mem_cons_self _ _)
    subst ho
    have := ih (fun v hv => hall v (List.mem_cons_of_mem _ hv))
    simp only [create_temp_files]
    simp [this]

/-- C3 amended: every temporary file recorded in `temp_files` is deleted
exactly once and is absent from the filesystem when the batch completes,
regardless of success or batch-level exception; and when no write raises
during the creation loop, the recorded files are exactly the created ones,
so every created temp file is deleted exactly once. (A file whose byte-write
raises between its creation and its recording is not cleaned up — see the
counterexample.) -/
theorem c3_amended (fs0 : List String) (uploads : List (String × CreateOutcome))
    (hnd : (uploads.map Prod.fst).Nodup)
    (hfresh : ∀ p ∈ uploads.map Prod.fst, p ∉ fs0) :
    (∀ p ∈ (create_temp_files uploads).2,
        p ∉ (run_batch_files fs0 uploads).files
          ∧ (run_batch_files fs0 uploads).unlinked.count p = 1)
      ∧ ((∀ u ∈ uploads, u.2 = CreateOutcome.completed) →
          (create_temp_files uploads).1 = (create_temp_files uploads).2) := by
  obtain ⟨hsub1, hsub2⟩ := create_temp_files_sublists uploads
  constructor
  · intro p hp
    have hpcreated : p ∈ (create_temp_files uploads).1 := hsub1.subset hp
    have hcreated_nd : (create_temp_files uploads).1.Nodup := hsub2.nodup hnd
    have hrec_nd : (create_temp_files uploads).2.Nodup := hsub1.nodup hcreated_nd
    have hpfs0 : p ∉ fs0 := hfresh p (hsub2.subset hpcreated)
    have hcount : ((create_temp_files uploads).1 ++ fs0).count p = 1 := by
      rw [List.count_append]
      have h1 : (create_temp_files uploads).1.count p = 1 := by
        have hle := List.nodup_iff_count_le_one.mp hcreated_nd p
        have hge : 0 < (create_temp_files uploads).1.count p :=
          List.count_pos_iff.mpr hpcreated
        omega
      have h0 : fs0.count p = 0 := List.count_eq_zero.mpr hpfs0
      omega
    have := cleanup_removes_once (create_temp_files uploads).2
      { files := (create_temp_files uploads).1 ++ fs0, unlinked := [] } p hrec_nd hp hcount
    unfold run_batch_files
    refine ⟨?_, ?_⟩
    · exact List.count_eq_zero.mp this.1
    · rw [this.2]
      simp
  · exact create_temp_files_all_completed uploads

/-- Witness data for `c3_amended`: two uploads, both writes complete. -/
def c3_witness_uploads : List (String × CreateOutcome) :=
  [("tmpA", CreateOutcome.completed), ("tmpB", CreateOutcome.completed)]

theorem c3_amended_witness :
    (c3_witness_uploads.map Prod.fst).Nodup
      ∧ (∀ p ∈ c3_witness_uploads.map Prod.fst, p ∉ ([] : List String))
      ∧ ((∀ p ∈ (create_temp_files c3_witness_uploads).2,
            p ∉ (run_batch_files [] c3_witness_uploads).files
              ∧ (run_batch_files [] c3_witness_uploads).unlinked.count p = 1)
          ∧ ((∀ u ∈ c3_witness_uploads, u.2 = CreateOutcome.completed) →
              (create_temp_files c3_witness_uploads).1
                = (create_temp_files c3_witness_uploads).2)) :=
  ⟨by decide, by decide, c3_amended [] c3_witness_uploads (by decide) (by decide)⟩

/-! ## The transient spreadsheet artifact (lines 474-505)

The Excel export block writes the workbook to the fixed relative path
`batch_analysis.xlsx` in the working directory. With the `xlsxwriter` engine
the file appears on disk when `excel_buffer.close()` runs (line 492); it is
read back (lines 495-496), offered for download (lines 498-501) and then
unlinked (lines 504-505) — all inside the page's `try`. The `finally` block
(lines 511-515) removes only the recorded temp files. The block is modelled
as its sequence of steps touching the filesystem; `fail_at = some i` means
step `i` raises before performing its effect, after which control reaches the
`except` handler and then the `finally` cleanup. -/
inductive ExportStep where
  | write_sheets
  | close_writer
  | read_back
  | offer_download
  | unlink_xlsx
deriving DecidableEq

/-- The fixed relative path of the transient workbook (lines 474, 495, 504). -/
def xlsx_path : String := "batch_analysis.xlsx"

/-- The export block's steps in program order (lines 474-505). -/
def export_steps : List ExportStep :=
  [ExportStep.write_sheets, ExportStep.close_writer, ExportStep.read_back,
   ExportStep.offer_download, ExportStep.unlink_xlsx]

/-- Filesystem effect of one export step: `close_writer` materialises the
workbook, `unlink_xlsx` removes it if present (lines 504-505), the other
steps do not touch the filesystem. -/
def export_step_fs (files : List String) : ExportStep → List String
  | ExportStep.close_writer => xlsx_path :: files
  | ExportStep.unlink_xlsx => if xlsx_path ∈ files then files.erase xlsx_path else files
  | _ => files

/-- The export block run until completion (`fail_at = none`) or until step
`fail_at` raises. -/
def run_excel_export (files : List String) (fail_at : Option Nat) : List String :=
  (export_steps.take (fail_at.getD export_steps.length)).foldl export_step_fs files

/-- The export block followed by the page's `finally` cleanup of the
recorded temp files (which never mentions `xlsx_path`). -/
def run_batch_export (files : List String) (temp_paths : List String)
    (fail_at : Option Nat) : List String :=
  temp_paths.foldl (fun fs p => if p ∈ fs then fs.erase p else fs)
    (run_excel_export files fail_at)

/-- C9 evaluated: on the success path the workbook is deleted before the
batch finishes, but when the read-back (step 2) raises after
`excel_buffer.close()` materialised the workbook, `batch_analysis.xlsx`
survives the request — the `except`/`finally` path never unlinks it. The
claim that the artifact is deleted on every execution path is wrong on the
code; the code, not the claim, is at fault (the file is explicitly meant to
be transient: it is unlinked on the success path, line 503's comment calls it
a temporary Excel file, and the spec promises no persistence). -/
theorem c9_xlsx_leak :
    run_batch_export ["tmpA"] ["tmpA"] none = []
      ∧ run_batch_export ["tmpA"] ["tmpA"] (some 2) = [xlsx_path]
      ∧ xlsx_path ∈ run_batch_export ["tmpA"] ["tmpA"] (some 2) := by
  refine ⟨by decide, by decide, by decide⟩

/-! ## The batch page (lines 361-455): dispatch on the job description

`job_description` is `None` when the checkbox is off and the text-area string
when it is on; both the analyzer dispatch (line 394) and the ranking guard
(line 432) test its Python truthiness, so the empty string behaves like
`None`. -/

/-- Python truthiness of the optional `job_description` string. -/
def truthy : Option String → Bool
  | none => false
  | some s => !s.isEmpty

/-- Lines 393-397: call `analyze_cv_file(temp_path, job_description)` when
`job_description` is truthy, `analyze_cv_file(temp_path)` otherwise. The two
arities of the external analyzer are two opaque functions. -/
def analyze_dispatch {α : Type} (analyze1 : α → Except String AnalysisResult)
    (analyze2 : α → String → Except String AnalysisResult)
    (job_description : Option String) (path : α) : Except String AnalysisResult :=
  if truthy job_description then analyze2 path (job_description.getD "")
  else analyze1 path

/-- Line 400: `result["filename"] = original_name`. -/
def inject_filename (result : AnalysisResult) (original_name : String) : AnalysisResult :=
  { result with filename := some original_name }

/-- Observable output of one run of the batch page: results, error log, and
the optional overview/ranking/top-candidates tables (`overview` is shown only
when `all_results` is non-empty, line 413; ranking and top candidates
additionally require a truthy job description, line 432). -/
structure BatchOutput where
  all_results : List AnalysisResult
  error_log : List String
  overview : Option (List OverviewRow)
  ranking : Option (List OverviewRow)
  top : Option (List OverviewRow)

/-- Lines 367-455 (visualisation and export side effects elided): the batch
page's computation. -/
def batch_analyse {α : Type} (analyze1 : α → Except String AnalysisResult)
    (analyze2 : α → String → Except String AnalysisResult)
    (temp_files : List (α × String)) (job_description : Option String) : BatchOutput :=
  let pair := batch_loop (analyze_dispatch analyze1 analyze2 job_description)
    inject_filename temp_files
  if pair.1.isEmpty then
    { all_results := pair.1, error_log := pair.2, overview := none, ranking := none,
      top := none }
  else
    let ov := overview_data pair.1
    if truthy job_description then
      let rk := ranking_table ov
      { all_results := pair.1, error_log := pair.2, overview := some ov,
        ranking := some rk, top := some (top_candidates_sel rk) }
    else
      { all_results := pair.1, error_log := pair.2, overview := some ov, ranking := none,
        top := none }

/-- C10: an empty job-description string behaves exactly like no job
description: the page's output is identical, every analyzer call uses the
one-argument form, and no ranking table and no top-candidates subset are
produced. -/
theorem c10_empty_job_description {α : Type} (analyze1 : α → Except String AnalysisResult)
    (analyze2 : α → String → Except String AnalysisResult)
    (temp_files : List (α × String)) :
    batch_analyse analyze1 analyze2 temp_files (some "")
        = batch_analyse analyze1 analyze2 temp_files none
      ∧ (∀ path, analyze_dispatch analyze1 analyze2 (some "") path = analyze1 path)
      ∧ (batch_analyse analyze1 analyze2 temp_files (some "")).ranking = none
      ∧ (batch_analyse analyze1 analyze2 temp_files (some "")).top = none := by
  have ht : truthy (some "") = false := by decide
  have htn : truthy none = false := rfl
  have hd : analyze_dispatch analyze1 analyze2 (some "")
      = analyze_dispatch analyze1 analyze2 none := by
    funext path
    simp only [analyze_dispatch, ht, htn, Bool.false_eq_true, if_false]
  refine ⟨?_, fun path => by simp only [analyze_dispatch, ht, Bool.false_eq_true, if_false],
    ?_, ?_⟩
  · simp only [batch_analyse, hd, ht, htn]
  · simp only [batch_analyse, ht, Bool.false_eq_true, if_false]
    split <;> rfl
  · simp only [batch_analyse, ht, Bool.false_eq_true, if_false]
    split <;> rfl

/-! ## JSON model for the raw batch export (lines 464-469)

`json.dumps(all_results, indent=2)` serialises the list of result dicts
exactly as the analyzer produced them (plus the injected `filename` keys), so
for this claim results are modelled as JSON value trees rather than as the
typed record above. Numbers are integers (floats are outside the model: the
parser below rejects a fraction or exponent instead of mis-parsing it).
Objects are key-value lists in insertion order, the order both `json.dumps`
and Python dicts preserve. -/
inductive Json where
  | null
  | bool (b : Bool)
  | num (n : Int)
  | str (s : String)
  | arr (elements : List Json)
  | obj (members : List (String × Json))

/-- Boolean key-distinctness, the invariant every value that was a Python
dict satisfies (a dict cannot hold a key twice). -/
def strNodup : List String → Bool
  | [] => true
  | s :: rest => !rest.contains s && strNodup rest

mutual

/-- Well-formedness of a JSON tree as the image of a Python object: every
object has pairwise-distinct keys. -/
def wfJ : Json → Bool
  | Json.null => true
  | Json.bool _ => true
  | Json.num _ => true
  | Json.str _ => true
  | Json.arr xs => wfElems xs
  | Json.obj kvs => strNodup (kvs.map Prod.fst) && wfMembers kvs

def wfElems : List Json → Bool
  | [] => true
  | x :: xs => wfJ x && wfElems xs

def wfMembers : List (String × Json) → Bool
  | [] => true
  | (_, v) :: kvs => wfJ v && wfMembers kvs

end

/-- Python dict assignment `d[k] = v`: overwrite in place if the key exists,
else append. -/
def setKey : List (String × Json) → String → Json → List (String × Json)
  | [], k, v => [(k, v)]
  | (k0, v0) :: rest, k, v =>
      if k0 = k then (k0, v) :: rest else (k0, v0) :: setKey rest k v

/-- Python dict lookup `d[k]` (first, hence unique, occurrence). -/
def getKey : List (String × Json) → String → Option Json
  | [], _ => none
  | (k0, v0) :: rest, k => if k0 = k then some v0 else getKey rest k

/-- Whether a value is a dict. -/
def isObjB : Json → Bool
  | Json.obj _ => true
  | _ => false

/-- Line 400 on the raw representation: `result["filename"] = original_name`
(the analyzer returns a dict; on a non-dict the page would raise, so the
round-trip theorem assumes `isObjB`). -/
def json_inject_filename (result : Json) (original_name : String) : Json :=
  match result with
  | Json.obj kvs => Json.obj (setKey kvs "filename" (Json.str original_name))
  | other => other

/-- The `filename` entry of a result dict. -/
def lookup_filename : Json → Option Json
  | Json.obj kvs => getKey kvs "filename"
  | _ => none

/-! ### The serialiser: `json.dumps(·, indent=2)`

With an `indent` argument Python separates items with `",\n" + indent` and
keys from values with `": "`, opens a non-empty container with a newline plus
one deeper indent, closes it with a newline plus the current indent, and
prints `[]`/`{}` for empty containers. `ensure_ascii` (the default) escapes
`"`, `\`, control characters and all non-ASCII characters, the latter as
`\uXXXX` (as a surrogate pair beyond U+FFFF). -/

/-- Lowercase hex digit, as CPython's `\uXXXX` escapes print it. -/
def hexChar (d : Nat) : Char :=
  if d < 10 then Char.ofNat (48 + d) else Char.ofNat (87 + d)

/-- The four hex digits of a code unit `v < 65536`. -/
def hex4 (v : Nat) : List Char :=
  [hexChar (v / 4096 % 16), hexChar (v / 256 % 16), hexChar (v / 16 % 16), hexChar (v % 16)]

/-- A `\uXXXX` escape for a code unit `v < 65536`. -/
def uEscape (v : Nat) : List Char := '\\' :: 'u' :: hex4 v

/-- CPython's `ensure_ascii` escaping of one character. -/
def escapeChar (c : Char) : List Char :=
  if c = '\\' then ['\\', '\\']
  else if c = '"' then ['\\', '"']
  else if c = '\n' then ['\\', 'n']
  else if c = '\t' then ['\\', 't']
  else if c = '\r' then ['\\', 'r']
  else if c = '\x08' then ['\\', 'b']
  else if c = '\x0c' then ['\\', 'f']
  else if c.toNat < 32 ∨ 126 < c.toNat then
    if c.toNat < 65536 then uEscape c.toNat
    else uEscape (55296 + (c.toNat - 65536) / 1024)
      ++ uEscape (56320 + (c.toNat - 65536) % 1024)
  else [c]

def escapeList (cs : List Char) : List Char := cs.flatMap escapeChar

/-- A JSON string literal: quote, escaped characters, quote. -/
def quoteString (s : String) : List Char := '"' :: (escapeList s.data ++ ['"'])

/-- Decimal digits of a natural number, most significant first (`repr`'s
digit string). -/
def natChars (n : Nat) : List Char :=
  if n = 0 then ['0']
  else (Nat.digits 10 n).reverse.map (fun d => Char.ofNat (48 + d))

/-- Python's `repr` of an int: optional minus sign, then decimal digits. -/
def intChars (n : Int) : List Char :=
  if n < 0 then '-' :: natChars n.natAbs else natChars n.toNat

/-- A newline followed by `2 * level` spaces: the separator prefix at a given
nesting level for `indent=2`. -/
def nlIndent (level : Nat) : List Char := '\n' :: List.replicate (2 * level) ' '

mutual

/-- `json.dumps(v, indent=2)` at a nesting level, as a character list. -/
def emitJson : Nat → Json → List Char
  | _, Json.null => ['n', 'u', 'l', 'l']
  | _, Json.bool true => ['t', 'r', 'u', 'e']
  | _, Json.bool false => ['f', 'a', 'l', 's', 'e']
  | _, Json.num n => intChars n
  | _, Json.str s => quoteString s
  | _, Json.arr [] => ['[', ']']
  | level, Json.arr (x :: xs) =>
      '[' :: (nlIndent (level + 1) ++ emitJson (level + 1) x
        ++ emitArrTail (level + 1) xs ++ nlIndent level ++ [']'])
  | _, Json.obj [] => ['\x7b', '\x7d']
  | level, Json.obj (kv :: kvs) =>
      '\x7b' :: (nlIndent (level + 1) ++ emitMember (level + 1) kv
        ++ emitObjTail (level + 1) kvs ++ nlIndent level ++ ['\x7d'])

/-- One `"key": value` member. -/
def emitMember : Nat → String × Json → List Char
  | level, (k, v) => quoteString k ++ ':' :: ' ' :: emitJson level v

/-- `",\n<indent>element"` for each remaining array element. -/
def emitArrTail : Nat → List Json → List Char
  | _, [] => []
  | level, x :: xs => ',' :: (nlIndent level ++ emitJson level x ++ emitArrTail level xs)

/-- `",\n<indent>member"` for each remaining object member. -/
def emitObjTail : Nat → List (String × Json) → List Char
  | _, [] => []
  | level, kv :: kvs => ',' :: (nlIndent level ++ emitMember level kv ++ emitObjTail level kvs)

end

/-- Line 465: `json.dumps(value, indent=2)`. -/
def json_dumps_indent2 (v : Json) : String := String.mk (emitJson 0 v)

/-- Line 465: `json_batch_data = json.dumps(all_results, indent=2)`. -/
def json_batch_data (all_results : List Json) : String :=
  json_dumps_indent2 (Json.arr all_results)

/-! ### The parser: a model of Python's `json.loads`

`json.loads` skips JSON whitespace between tokens, parses the single
top-level value and requires only whitespace after it. The model is
fuel-indexed (the fuel bounds the container nesting the parser will enter;
`json_loads` passes one more than the input length, which the round-trip
lemmas show is always enough for serialiser output). Deliberate restrictions,
each on inputs `json.dumps` never produces for the values modelled here:
numbers with a fraction or exponent (floats) and lone-surrogate `\uXXXX`
escapes are rejected rather than parsed. -/

def isJsonWs (c : Char) : Bool :=
  c == ' ' || c == '\t' || c == '\n' || c == '\r'

def skipWs : List Char → List Char
  | [] => []
  | c :: cs => if isJsonWs c then skipWs cs else c :: cs

/-- Value of one hex digit (`json.loads` accepts both cases). -/
def hexVal (c : Char) : Option Nat :=
  if '0' ≤ c ∧ c ≤ '9' then some (c.toNat - 48)
  else if 'a' ≤ c ∧ c ≤ 'f' then some (c.toNat - 87)
  else if 'A' ≤ c ∧ c ≤ 'F' then some (c.toNat - 55)
  else none

def parseHex4 : List Char → Option (Nat × List Char)
  | c1 :: c2 :: c3 :: c4 :: rest =>
      match hexVal c1, hexVal c2, hexVal c3, hexVal c4 with
      | some d1, some d2, some d3, some d4 =>
          some (4096 * d1 + 256 * d2 + 16 * d3 + d4, rest)
      | _, _, _, _ => none
  | _ => none

/-- One escape sequence, after the backslash: the short escapes, or `\uXXXX`
with surrogate-pair recombination. -/
def parseEscape : List Char → Option (Char × List Char)
  | [] => none
  | c :: rest =>
      if c = 'u' then
        match parseHex4 rest with
        | some (v, rest1) =>
            if 55296 ≤ v ∧ v < 56320 then
              match rest1 with
              | '\\' :: 'u' :: rest2 =>
                  match parseHex4 rest2 with
                  | some (w, rest3) =>
                      if 56320 ≤ w ∧ w < 57344 then
                        some (Char.ofNat (65536 + (v - 55296) * 1024 + (w - 56320)), rest3)
                      else none
                  | none => none
              | _ => none
            else if 56320 ≤ v ∧ v < 57344 then none
            else some (Char.ofNat v, rest1)
        | none => none
      else if c = '"' then some ('"', rest)
      else if c = '\\' then some ('\\', rest)
      else if c = '/' then some ('/', rest)
      else if c = 'b' then some ('\x08', rest)
      else if c = 'f' then some ('\x0c', rest)
      else if c = 'n' then some ('\n', rest)
      else if c = 'r' then some ('\r', rest)
      else if c = 't' then some ('\t', rest)
      else none

/-- The body of a string literal, after the opening quote: characters up to
the closing quote, unescaping as `json.loads` does (strict mode: raw control
characters are rejected). -/
def parseStringBody : Nat → List Char → Option (List Char × List Char)
  | 0, _ => none
  | _ + 1, [] => none
  | fuel + 1, c :: cs =>
      if c = '"' then some ([], cs)
      else if c = '\\' then
        match parseEscape cs with
        | some (d, cs1) =>
            match parseStringBody fuel cs1 with
            | some (s, rest) => some (d :: s, rest)
            | none => none
        | none => none
      else if c.toNat < 32 then none
      else
        match parseStringBody fuel cs with
        | some (s, rest) => some (c :: s, rest)
        | none => none

/-- Greedily consume a decimal digit run, accumulating its value. -/
def parseDigitsVal (acc : Nat) : List Char → Nat × List Char
  | [] => (acc, [])
  | c :: cs =>
      if c.isDigit then parseDigitsVal (10 * acc + (c.toNat - 48)) cs else (acc, c :: cs)

/-- Whether a fraction or exponent follows — a float literal, which the
integer-valued model rejects. -/
def floatFollows : List Char → Bool
  | [] => false
  | c :: _ => c == '.' || c == 'e' || c == 'E'

/-- An integer literal: optional minus sign, then digits. -/
def parseNumber : List Char → Option (Int × List Char)
  | [] => none
  | c :: cs1 =>
      if c = '-' then
        match cs1 with
        | [] => none
        | d :: cs2 =>
            if d.isDigit then
              let p := parseDigitsVal (d.toNat - 48) cs2
              if floatFollows p.2 then none else some (-(p.1 : Int), p.2)
            else none
      else if c.isDigit then
        let p := parseDigitsVal (c.toNat - 48) cs1
        if floatFollows p.2 then none else some ((p.1 : Int), p.2)
      else none

/-- Whether a character list starts with the given character. -/
def headIs (cs : List Char) (c : Char) : Bool :=
  match cs with
  | d :: _ => d == c
  | [] => false

mutual

/-- One JSON value, starting exactly at its first token. -/
def parseValue : Nat → List Char → Option (Json × List Char)
  | 0, _ => none
  | _ + 1, [] => none
  | fuel + 1, c :: cs =>
      if c = 'n' then
        match cs with
        | 'u' :: 'l' :: 'l' :: rest => some (Json.null, rest)
        | _ => none
      else if c = 't' then
        match cs with
        | 'r' :: 'u' :: 'e' :: rest => some (Json.bool true, rest)
        | _ => none
      else if c = 'f' then
        match cs with
        | 'a' :: 'l' :: 's' :: 'e' :: rest => some (Json.bool false, rest)
        | _ => none
      else if c = '"' then
        match parseStringBody cs.length cs with
        | some (chars, rest1) => some (Json.str (String.mk chars), rest1)
        | none => none
      else if c = '[' then
        let cs1 := skipWs cs
        if headIs cs1 ']' then some (Json.arr [], cs1.tail)
        else
          match parseValue fuel cs1 with
          | some (v, rest2) =>
              match parseArrayTail fuel [v] rest2 with
              | some (vs, rest3) => some (Json.arr vs, rest3)
              | none => none
          | none => none
      else if c = '\x7b' then
        let cs1 := skipWs cs
        if headIs cs1 '\x7d' then some (Json.obj [], cs1.tail)
        else
          match parseMember fuel cs1 with
          | some (kv, rest2) =>
              match parseObjectTail fuel (setKey [] kv.1 kv.2) rest2 with
              | some (kvs, rest3) => some (Json.obj kvs, rest3)
              | none => none
          | none => none
      else
        match parseNumber (c :: cs) with
        | some (n, rest) => some (Json.num n, rest)
        | none => none

/-- After one array element: either `]` closes the array or `,` introduces
the next element. -/
def parseArrayTail : Nat → List Json → List Char → Option (List Json × List Char)
  | 0, _, _ => none
  | fuel + 1, acc, cs =>
      match skipWs cs with
      | ']' :: rest => some (acc.reverse, rest)
      | ',' :: rest =>
          match parseValue fuel (skipWs rest) with
          | some (v, rest1) => parseArrayTail fuel (v :: acc) rest1
          | none => none
      | _ => none

/-- After one object member: either `}` closes the object or `,` introduces
the next member; members land in the accumulating dict via `setKey`, as
CPython's scanner assigns them. -/
def parseObjectTail : Nat → List (String × Json) → List Char →
    Option (List (String × Json) × List Char)
  | 0, _, _ => none
  | fuel + 1, acc, cs =>
      match skipWs cs with
      | '\x7d' :: rest => some (acc, rest)
      | ',' :: rest =>
          match parseMember fuel (skipWs rest) with
          | some (kv, rest1) => parseObjectTail fuel (setKey acc kv.1 kv.2) rest1
          | none => none
      | _ => none

/-- One `"key": value` member, starting at the key's opening quote. -/
def parseMember : Nat → List Char → Option ((String × Json) × List Char)
  | 0, _ => none
  | _ + 1, [] => none
  | fuel + 1, c :: cs =>
      if c = '"' then
        match parseStringBody cs.length cs with
        | some (chars, rest1) =>
            match skipWs rest1 with
            | ':' :: rest2 =>
                match parseValue fuel (skipWs rest2) with
                | some (v, rest3) => some ((String.mk chars, v), rest3)
                | none => none
            | _ => none
        | none => none
      else none

end

/-- `json.loads`: skip leading whitespace, parse one value, require only
whitespace afterwards. -/
def json_loads (s : String) : Option Json :=
  let cs := skipWs s.data
  match parseValue (cs.length + 1) cs with
  | some (v, rest) => if (skipWs rest).isEmpty then some v else none
  | none => none

/-- Whether the next character could extend or re-type a number literal just
parsed to its left (a digit, or a fraction/exponent marker). Everything the
serialiser places after a value — `,`, `]`, `\x7d`, a newline, or nothing —
satisfies `numContinues = false`. -/
def numContinues : List Char → Bool
  | [] => false
  | c :: _ => c.isDigit || c == '.' || c == 'e' || c == 'E'

/-! ### Round trip, character level -/

theorem char_toNat_valid (c : Char) :
    c.toNat < 55296 ∨ (57343 < c.toNat ∧ c.toNat < 1114112) := c.valid

set_option maxRecDepth 20000 in
theorem hexVal_hexChar (d : Nat) (h : d < 16) : hexVal (hexChar d) = some d := by
  revert h
  revert d
  decide

theorem parseHex4_hex4 (v : Nat) (h : v < 65536) (rest : List Char) :
    parseHex4 (hex4 v ++ rest) = some (v, rest) := by
  have h1 := hexVal_hexChar (v / 4096 % 16) (Nat.mod_lt _ (by norm_num))
  have h2 := hexVal_hexChar (v / 256 % 16) (Nat.mod_lt _ (by norm_num))
  have h3 := hexVal_hexChar (v / 16 % 16) (Nat.mod_lt _ (by norm_num))
  have h4 := hexVal_hexChar (v % 16) (Nat.mod_lt _ (by norm_num))
  simp only [hex4, List.cons_append, List.nil_append, parseHex4, h1, h2, h3, h4]
  congr 1
  congr 1
  omega

theorem parseEscape_uEscape_bmp (v : Nat) (rest : List Char)
    (h : v < 55296 ∨ (57343 < v ∧ v < 65536)) :
    parseEscape ('u' :: (hex4 v ++ rest)) = some (Char.ofNat v, rest) := by
  have hv : v < 65536 := by omega
  have hhex := parseHex4_hex4 v hv rest
  simp only [parseEscape, if_pos rfl, hhex]
  have h1 : ¬(55296 ≤ v ∧ v < 56320) := by omega
  have h2 : ¬(56320 ≤ v ∧ v < 57344) := by omega
  simp [h1, h2]

theorem parseEscape_uEscape_pair (v : Nat) (rest : List Char)
    (h1 : 65536 ≤ v) (h2 : v < 1114112) :
    parseEscape ('u' :: (hex4 (55296 + (v - 65536) / 1024)
        ++ ('\\' :: 'u' :: (hex4 (56320 + (v - 65536) % 1024) ++ rest))))
      = some (Char.ofNat v, rest) := by
  have hhi : 55296 + (v - 65536) / 1024 < 65536 := by omega
  have hlo : 56320 + (v - 65536) % 1024 < 65536 := by
    have := Nat.mod_lt (v - 65536) (show 0 < 1024 by norm_num)
    omega
  have hh := parseHex4_hex4 _ hhi ('\\' :: 'u' :: (hex4 (56320 + (v - 65536) % 1024) ++ rest))
  have hl := parseHex4_hex4 _ hlo rest
  simp only [parseEscape, if_pos rfl, hh]
  have hsur : 55296 ≤ 55296 + (v - 65536) / 1024 ∧ 55296 + (v - 65536) / 1024 < 56320 := by
    constructor
    · omega
    · omega
  rw [if_pos hsur]
  simp only [hl]
  have hsur2 : 56320 ≤ 56320 + (v - 65536) % 1024 ∧ 56320 + (v - 65536) % 1024 < 57344 := by
    have := Nat.mod_lt (v - 65536) (show 0 < 1024 by norm_num)
    constructor
    · omega
    · omega
  rw [if_pos hsur2]
  have hval : 65536 + (55296 + (v - 65536) / 1024 - 55296) * 1024
      + (56320 + (v - 65536) % 1024 - 56320) = v := by omega
  rw [hval]
  simp

theorem one_le_escapeChar_length (c : Char) : 1 ≤ (escapeChar c).length := by
  unfold escapeChar
  split_ifs <;> simp [uEscape, hex4]

theorem length_le_escapeList (s : List Char) : s.length ≤ (escapeList s).length := by
  induction s with
  | nil => simp [escapeList]
  | cons c cs ih =>
    have := one_le_escapeChar_length c
    simp only [escapeList, List.flatMap_cons, List.length_append, List.length_cons]
    simp only [escapeList] at ih
    omega

/-- Round trip of the string-body scanner over the `ensure_ascii` escaping of
an arbitrary character sequence. -/
theorem parseStringBody_escapeList (s : List Char) : ∀ (fuel : Nat) (rest : List Char),
    s.length < fuel →
    parseStringBody fuel (escapeList s ++ '"' :: rest) = some (s, rest) := by
  induction s with
  | nil =>
    intro fuel rest hf
    obtain ⟨f, rfl⟩ : ∃ f, fuel = f + 1 := ⟨fuel - 1, by omega⟩
    simp [escapeList, parseStringBody]
  | cons c s' ih =>
    intro fuel rest hf
    obtain ⟨f, rfl⟩ : ∃ f, fuel = f + 1 := ⟨fuel - 1, by omega⟩
    have hIH := ih f rest (by simpa using Nat.lt_of_succ_lt_succ hf)
    have hv := char_toNat_valid c
    simp only [escapeList, List.flatMap_cons, List.append_assoc]
    have hmain : parseStringBody (f + 1)
        (escapeChar c ++ (escapeList s' ++ '"' :: rest)) = some (c :: s', rest) := by
      by_cases h1 : c = '\\'
      · have he : escapeChar c = ['\\', '\\'] := by simp [escapeChar, h1]
        rw [he]; subst h1
        simp [parseStringBody, parseEscape, hIH]
      · by_cases h2 : c = '"'
        · have he : escapeChar c = ['\\', '"'] := by simp [escapeChar, h1, h2]
          rw [he]; subst h2
          simp [parseStringBody, parseEscape, hIH]
        · by_cases h3 : c = '\n'
          · have he : escapeChar c = ['\\', 'n'] := by simp [escapeChar, h1, h2, h3]
            rw [he]; subst h3
            simp [parseStringBody, parseEscape, hIH]
          · by_cases h4 : c = '\t'
            · have he : escapeChar c = ['\\', 't'] := by simp [escapeChar, h1, h2, h3, h4]
              rw [he]; subst h4
              simp [parseStringBody, parseEscape, hIH]
            · by_cases h5 : c = '\r'
              · have he : escapeChar c = ['\\', 'r'] := by
                  simp [escapeChar, h1, h2, h3, h4, h5]
                rw [he]; subst h5
                simp [parseStringBody, parseEscape, hIH]
              · by_cases h6 : c = '\x08'
                · have he : escapeChar c = ['\\', 'b'] := by
                    simp [escapeChar, h1, h2, h3, h4, h5, h6]
                  rw [he]; subst h6
                  simp [parseStringBody, parseEscape, hIH]
                · by_cases h7 : c = '\x0c'
                  · have he : escapeChar c = ['\\', 'f'] := by
                      simp [escapeChar, h1, h2, h3, h4, h5, h6, h7]
                    rw [he]; subst h7
                    simp [parseStringBody, parseEscape, hIH]
                  · by_cases h8 : c.toNat < 32 ∨ 126 < c.toNat
                    · by_cases h9 : c.toNat < 65536
                      · have he : escapeChar c = '\\' :: 'u' :: hex4 c.toNat := by
                          simp only [escapeChar, if_neg h1, if_neg h2, if_neg h3, if_neg h4,
                            if_neg h5, if_neg h6, if_neg h7, if_pos h8, if_pos h9, uEscape]
                        rw [he]
                        have hesc := parseEscape_uEscape_bmp c.toNat
                          (escapeList s' ++ '"' :: rest) (by omega)
                        simp only [List.cons_append, parseStringBody]
                        simp [hesc, Char.ofNat_toNat, hIH]
                      · have he : escapeChar c
                            = '\\' :: 'u' :: (hex4 (55296 + (c.toNat - 65536) / 1024)
                              ++ ('\\' :: 'u' :: hex4 (56320 + (c.toNat - 65536) % 1024))) := by
                          simp only [escapeChar, if_neg h1, if_neg h2, if_neg h3, if_neg h4,
                            if_neg h5, if_neg h6, if_neg h7, if_pos h8, if_neg h9, uEscape]
                          simp
                        rw [he]
                        have hesc := parseEscape_uEscape_pair c.toNat
                          (escapeList s' ++ '"' :: rest) (by omega) (by omega)
                        simp only [List.cons_append, List.append_assoc] at hesc ⊢
                        rw [parseStringBody]
                        rw [if_neg (by decide : ¬('\\' = '"')), if_pos rfl]
                        rw [hesc, Char.ofNat_toNat]
                        simp only [hIH]
                    · have he : escapeChar c = [c] := by
                        simp only [escapeChar, if_neg h1, if_neg h2, if_neg h3, if_neg h4,
                          if_neg h5, if_neg h6, if_neg h7, if_neg h8]
                      rw [he]
                      simp only [List.cons_append, List.nil_append, parseStringBody]
                      rw [if_neg h2, if_neg h1, if_neg (by omega : ¬c.toNat < 32)]
                      simp [hIH]
    simpa using hmain

/-! ### Round trip, number level -/

theorem isDigit_toNat_bounds (c : Char) (h : c.isDigit = true) :
    48 ≤ c.toNat ∧ c.toNat ≤ 57 := by
  simp [Char.isDigit] at h
  exact h

set_option maxRecDepth 20000 in
theorem dchar_isDigit (d : Nat) (h : d < 10) : (Char.ofNat (48 + d)).isDigit = true := by
  revert h
  revert d
  decide

set_option maxRecDepth 20000 in
theorem dchar_toNat (d : Nat) (h : d < 10) : (Char.ofNat (48 + d)).toNat = 48 + d := by
  revert h
  revert d
  decide

theorem natChars_digits (n : Nat) : ∀ c ∈ natChars n, c.isDigit = true := by
  unfold natChars
  split
  · intro c hc
    simp only [List.mem_singleton] at hc
    subst hc
    decide
  · intro c hc
    simp only [List.mem_map, List.mem_reverse] at hc
    obtain ⟨d, hd, rfl⟩ := hc
    exact dchar_isDigit d (Nat.digits_lt_base (by norm_num) hd)

theorem natChars_ne_nil (n : Nat) : natChars n ≠ [] := by
  unfold natChars
  split
  · simp
  · rename_i h
    simp [Nat.digits_ne_nil_iff_ne_zero.mpr h]

theorem numContinues_not_digit (rest : List Char) (h : numContinues rest = false) :
    ∀ c cs, rest = c :: cs → c.isDigit = false := by
  intro c cs hrest
  subst hrest
  simp only [numContinues, Bool.or_eq_false_iff] at h
  exact h.1.1.1

theorem numContinues_no_float (rest : List Char) (h : numContinues rest = false) :
    floatFollows rest = false := by
  cases rest with
  | nil => rfl
  | cons c cs =>
    simp only [numContinues, Bool.or_eq_false_iff] at h
    simp only [floatFollows, Bool.or_eq_false_iff]
    exact ⟨⟨h.1.1.2, h.1.2⟩, h.2⟩

theorem parseDigitsVal_append (ds : List Char) (hds : ∀ c ∈ ds, c.isDigit = true)
    (rest : List Char) (hr : numContinues rest = false) :
    ∀ acc, parseDigitsVal acc (ds ++ rest)
      = (ds.foldl (fun a c => 10 * a + (c.toNat - 48)) acc, rest) := by
  induction ds with
  | nil =>
    intro acc
    cases rest with
    | nil => rfl
    | cons c cs =>
      have hc := numContinues_not_digit (c :: cs) hr c cs rfl
      simp [parseDigitsVal, hc]
  | cons c ds' ih =>
    intro acc
    have hc : c.isDigit = true := hds c (List.mem_cons_self _ _)
    simp only [List.cons_append, parseDigitsVal, hc, if_pos, List.append_eq]
    rw [ih (fun x hx => hds x (List.mem_cons_of_mem _ hx)) _]
    simp

theorem foldl_digit_chars (L : List Nat) (hL : ∀ d ∈ L, d < 10) :
    ∀ acc, ((L.reverse.map (fun d => Char.ofNat (48 + d))).foldl
        (fun a c => 10 * a + (c.toNat - 48)) acc)
      = acc * 10 ^ L.length + Nat.ofDigits 10 L := by
  induction L with
  | nil =>
    intro acc
    simp [Nat.ofDigits]
  | cons d L' ih =>
    intro acc
    have hd : d < 10 := hL d (List.mem_cons_self _ _)
    have hL' : ∀ x ∈ L', x < 10 := fun x hx => hL x (List.mem_cons_of_mem _ hx)
    simp only [List.reverse_cons, List.map_append, List.map_cons, List.map_nil,
      List.foldl_append, List.foldl_cons, List.foldl_nil]
    rw [ih hL']
    rw [dchar_toNat d hd]
    simp only [Nat.ofDigits_cons, List.length_cons]
    ring_nf
    omega

theorem natChars_value (n : Nat) :
    (natChars n).foldl (fun a c => 10 * a + (c.toNat - 48)) 0 = n := by
  unfold natChars
  split
  · rename_i h
    subst h
    decide
  · rename_i h
    rw [foldl_digit_chars (Nat.digits 10 n)
      (fun d hd => Nat.digits_lt_base (by norm_num) hd) 0]
    simp [Nat.ofDigits_digits]

theorem digit_ne_minus (c : Char) (h : c.isDigit = true) : ¬(c = '-') := by
  intro heq
  subst heq
  simp at h

theorem parseNumber_natChars (m : Nat) (rest : List Char) (hr : numContinues rest = false) :
    parseNumber (natChars m ++ rest) = some ((m : Int), rest) := by
  obtain ⟨c0, ds, hds⟩ : ∃ c0 ds, natChars m = c0 :: ds := by
    cases hn : natChars m with
    | nil => exact absurd hn (natChars_ne_nil m)
    | cons a l => exact ⟨a, l, rfl⟩
  have hdig := natChars_digits m
  rw [hds] at hdig
  have hc0 : c0.isDigit = true := hdig c0 (List.mem_cons_self _ _)
  rw [hds]
  simp only [List.cons_append, parseNumber]
  rw [if_neg (digit_ne_minus c0 hc0), if_pos hc0]
  have hpd := parseDigitsVal_append ds (fun x hx => hdig x (List.mem_cons_of_mem _ hx))
    rest hr (c0.toNat - 48)
  simp only [hpd]
  have hval : ds.foldl (fun a c => 10 * a + (c.toNat - 48)) (c0.toNat - 48) = m := by
    have := natChars_value m
    rw [hds] at this
    simpa using this
  simp [hval, numContinues_no_float rest hr]

theorem parseNumber_intChars (n : Int) (rest : List Char) (hr : numContinues rest = false) :
    parseNumber (intChars n ++ rest) = some (n, rest) := by
  by_cases hn : n < 0
  · have : intChars n = '-' :: natChars n.natAbs := by simp [intChars, hn]
    rw [this]
    obtain ⟨c0, ds, hds⟩ : ∃ c0 ds, natChars n.natAbs = c0 :: ds := by
      cases hx : natChars n.natAbs with
      | nil => exact absurd hx (natChars_ne_nil _)
      | cons a l => exact ⟨a, l, rfl⟩
    have hdig := natChars_digits n.natAbs
    rw [hds] at hdig
    have hc0 : c0.isDigit = true := hdig c0 (List.mem_cons_self _ _)
    rw [hds]
    simp only [List.cons_append, parseNumber, if_true]
    rw [if_pos hc0]
    have hpd := parseDigitsVal_append ds (fun x hx => hdig x (List.mem_cons_of_mem _ hx))
      rest hr (c0.toNat - 48)
    simp only [hpd]
    have hval : ds.foldl (fun a c => 10 * a + (c.toNat - 48)) (c0.toNat - 48) = n.natAbs := by
      have := natChars_value n.natAbs
      rw [hds] at this
      simpa using this
    have hneg : -((n.natAbs : Nat) : Int) = n := by omega
    simp [hval, numContinues_no_float rest hr, hneg]
    rw [abs_of_nonpos (by omega : n ≤ 0)]
    ring
  · have h0 : 0 ≤ n := by omega
    have : intChars n = natChars n.toNat := by simp [intChars, hn]
    rw [this, parseNumber_natChars n.toNat rest hr]
    congr 1
    congr 1
    omega

/-! ### Whitespace and first-character facts -/

theorem skipWs_cons_not_ws (c : Char) (cs : List Char) (h : isJsonWs c = false) :
    skipWs (c :: cs) = c :: cs := by
  simp [skipWs, h]

theorem skipWs_replicate_space (k : Nat) (cs : List Char) :
    skipWs (List.replicate k ' ' ++ cs) = skipWs cs := by
  induction k with
  | zero => simp
  | succ m ih => simpa [skipWs, isJsonWs] using ih

theorem skipWs_nlIndent (d : Nat) (cs : List Char) :
    skipWs (nlIndent d ++ cs) = skipWs cs := by
  simp only [nlIndent, List.cons_append, skipWs, isJsonWs]
  rw [if_pos (by decide)]
  exact skipWs_replicate_space _ cs

/-- The character classes a decimal digit avoids. -/
theorem digit_char_ne (c : Char) (h : c.isDigit = true) :
    isJsonWs c = false ∧ c ≠ ']' ∧ c ≠ '\x7d' ∧ c ≠ ',' ∧ c ≠ 'n' ∧ c ≠ 't' ∧ c ≠ 'f'
      ∧ c ≠ '"' ∧ c ≠ '[' ∧ c ≠ '\x7b' := by
  have hb := isDigit_toNat_bounds c h
  have hne : ∀ x : Char, x.toNat < 48 ∨ 57 < x.toNat → c ≠ x := by
    intro x hx heq
    subst heq
    omega
  refine ⟨?_, hne _ (by decide), hne _ (by decide), hne _ (by decide), hne _ (by decide),
    hne _ (by decide), hne _ (by decide), hne _ (by decide), hne _ (by decide),
    hne _ (by decide)⟩
  have h1 : c ≠ ' ' := hne _ (by decide)
  have h2 : c ≠ '\t' := hne _ (by decide)
  have h3 : c ≠ '\n' := hne _ (by decide)
  have h4 : c ≠ '\r' := hne _ (by decide)
  simp [isJsonWs, h1, h2, h3, h4]

/-- The first character a serialised value can start with is never
whitespace, a closing bracket, or a separator. -/
theorem emitJson_head (d : Nat) (v : Json) :
    ∃ c cs, emitJson d v = c :: cs ∧ isJsonWs c = false
      ∧ c ≠ ']' ∧ c ≠ '\x7d' ∧ c ≠ ',' := by
  cases v with
  | null => exact ⟨'n', _, rfl, by decide, by decide, by decide, by decide⟩
  | bool b =>
    cases b with
    | true => exact ⟨'t', _, rfl, by decide, by decide, by decide, by decide⟩
    | false => exact ⟨'f', _, rfl, by decide, by decide, by decide, by decide⟩
  | num n =>
    by_cases hn : n < 0
    · refine ⟨'-', natChars n.natAbs, ?_, by decide, by decide, by decide, by decide⟩
      simp [emitJson, intChars, hn]
    · obtain ⟨c0, ds, hds⟩ : ∃ c0 ds, natChars n.toNat = c0 :: ds := by
        cases hx : natChars n.toNat with
        | nil => exact absurd hx (natChars_ne_nil _)
        | cons a l => exact ⟨a, l, rfl⟩
      have hdig := natChars_digits n.toNat
      rw [hds] at hdig
      have hc0 := hdig c0 (List.mem_cons_self _ _)
      obtain ⟨w1, w2, w3, w4, _⟩ := digit_char_ne c0 hc0
      refine ⟨c0, ds, ?_, w1, w2, w3, w4⟩
      simp [emitJson, intChars, hn, hds]
  | str s => exact ⟨'"', _, rfl, by decide, by decide, by decide, by decide⟩
  | arr xs =>
    cases xs with
    | nil => exact ⟨'[', _, rfl, by decide, by decide, by decide, by decide⟩
    | cons x xs' => exact ⟨'[', _, rfl, by decide, by decide, by decide, by decide⟩
  | obj kvs =>
    cases kvs with
    | nil => exact ⟨'\x7b', _, rfl, by decide, by decide, by decide, by decide⟩
    | cons kv kvs' => exact ⟨'\x7b', _, rfl, by decide, by decide, by decide, by decide⟩

/-- Skipping whitespace in front of a serialised value is the identity. -/
theorem skipWs_emitJson (d : Nat) (v : Json) (rest : List Char) :
    skipWs (emitJson d v ++ rest) = emitJson d v ++ rest := by
  obtain ⟨c, cs, he, hws, _, _, _⟩ := emitJson_head d v
  rw [he]
  exact skipWs_cons_not_ws c _ hws

/-- What follows a complete element inside a serialised container never
continues a number: it is `,`, a newline, or the closing bracket line. -/
theorem numContinues_emitArrTail (d d0 : Nat) (xs : List Json) (cs : List Char) :
    numContinues (emitArrTail d xs ++ (nlIndent d0 ++ cs)) = false := by
  cases xs with
  | nil => simp [emitArrTail, nlIndent, numContinues]
  | cons x xs' => simp [emitArrTail, numContinues]

theorem numContinues_emitObjTail (d d0 : Nat) (kvs : List (String × Json)) (cs : List Char) :
    numContinues (emitObjTail d kvs ++ (nlIndent d0 ++ cs)) = false := by
  cases kvs with
  | nil => simp [emitObjTail, nlIndent, numContinues]
  | cons kv kvs' => simp [emitObjTail, numContinues]

/-! ### Fuel accounting: a size measure bounded by the serialised length -/

mutual

/-- Fuel needed by `parseValue` to re-read a serialised value. -/
def jsize : Json → Nat
  | Json.null => 1
  | Json.bool _ => 1
  | Json.num _ => 1
  | Json.str _ => 1
  | Json.arr xs => 1 + lsize xs
  | Json.obj kvs => 1 + msize kvs

/-- Fuel needed by `parseArrayTail` for the remaining elements. -/
def lsize : List Json → Nat
  | [] => 1
  | x :: xs => 1 + jsize x + lsize xs

/-- Fuel needed by `parseObjectTail` for the remaining members. -/
def msize : List (String × Json) → Nat
  | [] => 1
  | (_, v) :: kvs => 1 + jsize v + msize kvs

end

mutual

theorem jsize_le_emitJson : ∀ (d : Nat) (v : Json), jsize v ≤ (emitJson d v).length
  | _, Json.null => by simp [jsize, emitJson]
  | _, Json.bool true => by simp [jsize, emitJson]
  | _, Json.bool false => by simp [jsize, emitJson]
  | _, Json.num n => by
      have h := natChars_ne_nil n.toNat
      have h2 := natChars_ne_nil n.natAbs
      simp only [jsize, emitJson, intChars]
      split
      · simp only [List.length_cons]
        omega
      · have : 0 < (natChars n.toNat).length := List.length_pos.mpr h
        omega
  | _, Json.str s => by simp [jsize, emitJson, quoteString]
  | _, Json.arr [] => by simp [jsize, lsize, emitJson]
  | d, Json.arr (x :: xs) => by
      have h1 := jsize_le_emitJson (d + 1) x
      have h2 := lsize_le_emitArrTail (d + 1) xs
      simp only [jsize, lsize, emitJson, nlIndent, List.length_cons, List.length_append,
        List.length_replicate]
      omega
  | _, Json.obj [] => by simp [jsize, msize, emitJson]
  | d, Json.obj (kv :: kvs) => by
      have h1 := member_le_emitMember (d + 1) kv
      have h2 := msize_le_emitObjTail (d + 1) kvs
      simp only [jsize, msize] at h1 h2 ⊢
      obtain ⟨k, v⟩ := kv
      simp only [emitJson, nlIndent, List.length_cons, List.length_append,
        List.length_replicate] at h1 h2 ⊢
      omega

theorem member_le_emitMember : ∀ (d : Nat) (kv : String × Json),
    1 + jsize kv.2 ≤ (emitMember d kv).length
  | d, (k, v) => by
      have h1 := jsize_le_emitJson d v
      simp only [emitMember, quoteString, List.length_append, List.length_cons]
      omega

theorem lsize_le_emitArrTail : ∀ (d : Nat) (xs : List Json),
    lsize xs ≤ (emitArrTail d xs).length + 1
  | _, [] => by simp [lsize, emitArrTail]
  | d, x :: xs => by
      have h1 := jsize_le_emitJson d x
      have h2 := lsize_le_emitArrTail d xs
      simp only [lsize, emitArrTail, nlIndent, List.length_cons, List.length_append,
        List.length_replicate]
      omega

theorem msize_le_emitObjTail : ∀ (d : Nat) (kvs : List (String × Json)),
    msize kvs ≤ (emitObjTail d kvs).length + 1
  | _, [] => by simp [msize, emitObjTail]
  | d, kv :: kvs => by
      obtain ⟨k, v⟩ := kv
      have h1 := jsize_le_emitJson d v
      have h2 := msize_le_emitObjTail d kvs
      simp only [msize, emitObjTail, emitMember, quoteString, nlIndent, List.length_cons,
        List.length_append, List.length_replicate] at h2 ⊢
      omega

end

theorem one_le_jsize (v : Json) : 1 ≤ jsize v := by
  cases v <;> simp [jsize]

theorem one_le_lsize (xs : List Json) : 1 ≤ lsize xs := by
  cases xs with
  | nil => simp [lsize]
  | cons x xs =>
    simp only [lsize]
    omega

theorem one_le_msize (kvs : List (String × Json)) : 1 ≤ msize kvs := by
  cases kvs with
  | nil => simp [msize]
  | cons kv kvs =>
    obtain ⟨k, v⟩ := kv
    simp only [msize]
    omega

theorem headIs_emitJson_append (d : Nat) (v : Json) (R : List Char) (x : Char)
    (hx : x = ']' ∨ x = '\x7d') :
    headIs (emitJson d v ++ R) x = false := by
  obtain ⟨c, cs, he, _, hb1, hb2, _⟩ := emitJson_head d v
  rw [he]
  simp only [List.cons_append, headIs]
  rcases hx with rfl | rfl
  · exact beq_eq_false_iff_ne.mpr hb1
  · exact beq_eq_false_iff_ne.mpr hb2

theorem emitMember_eq_cons (d : Nat) (kv : String × Json) :
    emitMember d kv = '"' :: ((escapeList kv.1.data ++ ['"'])
      ++ (':' :: ' ' :: emitJson d kv.2)) := by
  obtain ⟨k, v⟩ := kv
  simp [emitMember, quoteString]

theorem skipWs_emitMember (d : Nat) (kv : String × Json) (R : List Char) :
    skipWs (emitMember d kv ++ R) = emitMember d kv ++ R := by
  rw [emitMember_eq_cons]
  simp only [List.cons_append]
  exact skipWs_cons_not_ws _ _ (by decide)

theorem headIs_emitMember_rbrace (d : Nat) (kv : String × Json) (R : List Char) :
    headIs (emitMember d kv ++ R) '\x7d' = false := by
  rw [emitMember_eq_cons]
  simp [headIs]

theorem skipWs_space (cs : List Char) : skipWs (' ' :: cs) = skipWs cs := by
  simp [skipWs, isJsonWs]

theorem setKey_nil (k : String) (v : Json) : setKey [] k v = [(k, v)] := rfl

theorem setKey_of_not_mem (kvs : List (String × Json)) (k : String) (v : Json)
    (h : k ∉ kvs.map Prod.fst) : setKey kvs k v = kvs ++ [(k, v)] := by
  induction kvs with
  | nil => rfl
  | cons kv rest ih =>
    obtain ⟨k0, v0⟩ := kv
    have hk0 : k0 ≠ k := by
      intro heq
      exact h (by simp [heq])
    simp only [setKey, if_neg hk0, List.cons_append]
    rw [ih (fun hm => h (by simp [hm]))]

theorem strNodup_cons (s : String) (rest : List String) (h : strNodup (s :: rest) = true) :
    s ∉ rest ∧ strNodup rest = true := by
  simp only [strNodup, Bool.and_eq_true, Bool.not_eq_true'] at h
  refine ⟨?_, h.2⟩
  intro hmem
  have : rest.contains s = true := List.elem_iff.mpr hmem
  rw [this] at h
  exact absurd h.1 (by simp)

/-! ### One-step unfolding equations of the parser, per leading token -/

theorem parseValue_null (f : Nat) (rest : List Char) :
    parseValue (f + 1) ('n' :: 'u' :: 'l' :: 'l' :: rest) = some (Json.null, rest) := by
  simp [parseValue]

theorem parseValue_true (f : Nat) (rest : List Char) :
    parseValue (f + 1) ('t' :: 'r' :: 'u' :: 'e' :: rest) = some (Json.bool true, rest) := by
  simp [parseValue]

theorem parseValue_false (f : Nat) (rest : List Char) :
    parseValue (f + 1) ('f' :: 'a' :: 'l' :: 's' :: 'e' :: rest)
      = some (Json.bool false, rest) := by
  simp [parseValue]

theorem parseValue_quote (f : Nat) (cs : List Char) :
    parseValue (f + 1) ('"' :: cs)
      = match parseStringBody cs.length cs with
        | some (chars, rest1) => some (Json.str (String.mk chars), rest1)
        | none => none := by
  simp [parseValue]

theorem parseValue_lbrack (f : Nat) (cs : List Char) :
    parseValue (f + 1) ('[' :: cs)
      = if headIs (skipWs cs) ']' then some (Json.arr [], (skipWs cs).tail)
        else
          match parseValue f (skipWs cs) with
          | some (v, rest2) =>
              match parseArrayTail f [v] rest2 with
              | some (vs, rest3) => some (Json.arr vs, rest3)
              | none => none
          | none => none := by
  simp [parseValue]

theorem parseValue_lbrace (f : Nat) (cs : List Char) :
    parseValue (f + 1) ('\x7b' :: cs)
      = if headIs (skipWs cs) '\x7d' then some (Json.obj [], (skipWs cs).tail)
        else
          match parseMember f (skipWs cs) with
          | some (kv, rest2) =>
              match parseObjectTail f (setKey [] kv.1 kv.2) rest2 with
              | some (kvs, rest3) => some (Json.obj kvs, rest3)
              | none => none
          | none => none := by
  simp [parseValue]

theorem parseMember_quote (f : Nat) (cs : List Char) :
    parseMember (f + 1) ('"' :: cs)
      = match parseStringBody cs.length cs with
        | some (chars, rest1) =>
            (match skipWs rest1 with
            | ':' :: rest2 =>
                (match parseValue f (skipWs rest2) with
                | some (v, rest3) => some ((String.mk chars, v), rest3)
                | none => none)
            | _ => none)
        | none => none := by
  simp [parseMember]

theorem parseArrayTail_close (f : Nat) (acc : List Json) (cs rest : List Char)
    (h : skipWs cs = ']' :: rest) :
    parseArrayTail (f + 1) acc cs = some (acc.reverse, rest) := by
  simp [parseArrayTail, h]

theorem parseArrayTail_comma (f : Nat) (acc : List Json) (cs rest : List Char)
    (h : skipWs cs = ',' :: rest) :
    parseArrayTail (f + 1) acc cs
      = match parseValue f (skipWs rest) with
        | some (v, rest1) => parseArrayTail f (v :: acc) rest1
        | none => none := by
  simp [parseArrayTail, h]

theorem parseObjectTail_close (f : Nat) (acc : List (String × Json)) (cs rest : List Char)
    (h : skipWs cs = '\x7d' :: rest) :
    parseObjectTail (f + 1) acc cs = some (acc, rest) := by
  simp [parseObjectTail, h]

theorem parseObjectTail_comma (f : Nat) (acc : List (String × Json)) (cs rest : List Char)
    (h : skipWs cs = ',' :: rest) :
    parseObjectTail (f + 1) acc cs
      = match parseMember f (skipWs rest) with
        | some (kv, rest1) => parseObjectTail f (setKey acc kv.1 kv.2) rest1
        | none => none := by
  simp [parseObjectTail, h]

/-- The parser re-reads exactly what the serialiser wrote: simultaneously for
values, members, array tails and object tails, by induction on the parser's
fuel. -/
theorem parse_emit_roundtrip : ∀ fuel : Nat,
    (∀ (v : Json) (d : Nat) (rest : List Char), jsize v ≤ fuel → wfJ v = true →
      numContinues rest = false →
      parseValue fuel (emitJson d v ++ rest) = some (v, rest))
    ∧ (∀ (k : String) (v : Json) (d : Nat) (rest : List Char), 1 + jsize v ≤ fuel →
      wfJ v = true → numContinues rest = false →
      parseMember fuel (emitMember d (k, v) ++ rest) = some ((k, v), rest))
    ∧ (∀ (xs : List Json) (acc : List Json) (d d0 : Nat) (rest : List Char),
      lsize xs ≤ fuel → wfElems xs = true →
      parseArrayTail fuel acc (emitArrTail d xs ++ (nlIndent d0 ++ ']' :: rest))
        = some (acc.reverse ++ xs, rest))
    ∧ (∀ (kvs : List (String × Json)) (acc : List (String × Json)) (d d0 : Nat)
      (rest : List Char), msize kvs ≤ fuel → wfMembers kvs = true →
      strNodup (kvs.map Prod.fst) = true →
      (∀ k ∈ kvs.map Prod.fst, k ∉ acc.map Prod.fst) →
      parseObjectTail fuel acc (emitObjTail d kvs ++ (nlIndent d0 ++ '\x7d' :: rest))
        = some (acc ++ kvs, rest)) := by
  intro fuel
  induction fuel with
  | zero =>
    refine ⟨fun v _ _ h _ _ => absurd h (by have := one_le_jsize v; omega),
      fun _ v _ _ h _ _ => absurd h (by have := one_le_jsize v; omega),
      fun xs _ _ _ _ h _ => absurd h (by have := one_le_lsize xs; omega),
      fun kvs _ _ _ _ h _ _ _ => absurd h (by have := one_le_msize kvs; omega)⟩
  | succ f ih =>
    obtain ⟨ihV, ihM, ihA, ihO⟩ := ih
    have hV : ∀ (v : Json) (d : Nat) (rest : List Char), jsize v ≤ f + 1 → wfJ v = true →
        numContinues rest = false →
        parseValue (f + 1) (emitJson d v ++ rest) = some (v, rest) := by
      intro v d rest hsize hwf hrest
      cases v with
      | null =>
        rw [show emitJson d Json.null = ['n', 'u', 'l', 'l'] from rfl]
        simp only [List.cons_append, List.nil_append]
        exact parseValue_null f rest
      | bool b =>
        cases b with
        | true =>
          rw [show emitJson d (Json.bool true) = ['t', 'r', 'u', 'e'] from rfl]
          simp only [List.cons_append, List.nil_append]
          exact parseValue_true f rest
        | false =>
          rw [show emitJson d (Json.bool false) = ['f', 'a', 'l', 's', 'e'] from rfl]
          simp only [List.cons_append, List.nil_append]
          exact parseValue_false f rest
      | num n =>
        have hpn := parseNumber_intChars n rest hrest
        have hhead : ∃ c0 t, intChars n = c0 :: t ∧ (c0.isDigit = true ∨ c0 = '-') := by
          unfold intChars
          split
          · exact ⟨'-', _, rfl, Or.inr rfl⟩
          · obtain ⟨c0, t, h⟩ : ∃ c0 t, natChars n.toNat = c0 :: t := by
              cases hx : natChars n.toNat with
              | nil => exact absurd hx (natChars_ne_nil _)
              | cons a l => exact ⟨a, l, rfl⟩
            have hd := natChars_digits n.toNat
            rw [h] at hd
            exact ⟨c0, t, h, Or.inl (hd c0 (List.mem_cons_self _ _))⟩
        obtain ⟨c0, t, hic, hclass⟩ := hhead
        have hne : c0 ≠ 'n' ∧ c0 ≠ 't' ∧ c0 ≠ 'f' ∧ c0 ≠ '"' ∧ c0 ≠ '[' ∧ c0 ≠ '\x7b' := by
          rcases hclass with h | h
          · obtain ⟨_, _, _, _, h5, h6, h7, h8, h9, h10⟩ := digit_char_ne c0 h
            exact ⟨h5, h6, h7, h8, h9, h10⟩
          · subst h
            exact ⟨by decide, by decide, by decide, by decide, by decide, by decide⟩
        obtain ⟨w1, w2, w3, w4, w5, w6⟩ := hne
        rw [show emitJson d (Json.num n) = intChars n from rfl, hic]
        simp only [List.cons_append, parseValue]
        rw [if_neg w1, if_neg w2, if_neg w3, if_neg w4, if_neg w5, if_neg w6]
        simp only [List.append_eq]
        rw [← List.cons_append, ← hic, hpn]
      | str s =>
        have hlen : s.data.length < (escapeList s.data ++ '"' :: rest).length := by
          have := length_le_escapeList s.data
          simp only [List.length_append, List.length_cons]
          omega
        have hps := parseStringBody_escapeList s.data
          (escapeList s.data ++ '"' :: rest).length rest hlen
        rw [show emitJson d (Json.str s) = quoteString s from rfl]
        simp only [quoteString, List.cons_append, List.append_assoc, List.singleton_append,
          List.nil_append]
        rw [parseValue_quote, hps]
      | arr xs =>
        cases xs with
        | nil =>
          rw [show emitJson d (Json.arr []) = ['[', ']'] from rfl]
          simp only [List.cons_append, List.nil_append]
          rw [parseValue_lbrack, skipWs_cons_not_ws _ _ (by decide)]
          simp [headIs]
        | cons x xs' =>
          have hx : jsize x ≤ f ∧ lsize xs' ≤ f := by
            simp only [jsize, lsize] at hsize
            omega
          have hwf' : wfJ x = true ∧ wfElems xs' = true := by
            simp only [wfJ, wfElems, Bool.and_eq_true] at hwf
            exact hwf
          rw [show emitJson d (Json.arr (x :: xs'))
            = '[' :: (nlIndent (d + 1) ++ emitJson (d + 1) x
              ++ emitArrTail (d + 1) xs' ++ nlIndent d ++ [']']) from rfl]
          simp only [List.cons_append, List.append_assoc, List.singleton_append]
          rw [parseValue_lbrack, skipWs_nlIndent, skipWs_emitJson]
          rw [headIs_emitJson_append (d + 1) x _ ']' (Or.inl rfl)]
          simp only [Bool.false_eq_true, if_false]
          rw [ihV x (d + 1) _ hx.1 hwf'.1 (numContinues_emitArrTail (d + 1) d xs' _)]
          simp [ihA xs' [x] (d + 1) d rest hx.2 hwf'.2]
      | obj kvs =>
        cases kvs with
        | nil =>
          rw [show emitJson d (Json.obj []) = ['\x7b', '\x7d'] from rfl]
          simp only [List.cons_append, List.nil_append]
          rw [parseValue_lbrace, skipWs_cons_not_ws _ _ (by decide)]
          simp [headIs]
        | cons kv kvs' =>
          obtain ⟨k1, v1⟩ := kv
          have hx : 1 + jsize v1 ≤ f ∧ msize kvs' ≤ f := by
            simp only [jsize, msize] at hsize
            omega
          have hwf0 : strNodup ((k1 :: kvs'.map Prod.fst)) = true
              ∧ wfJ v1 = true ∧ wfMembers kvs' = true := by
            simp only [wfJ, wfMembers, List.map_cons, Bool.and_eq_true] at hwf
            exact ⟨hwf.1, hwf.2.1, hwf.2.2⟩
          obtain ⟨hk1, hnd'⟩ := strNodup_cons _ _ hwf0.1
          rw [show emitJson d (Json.obj ((k1, v1) :: kvs'))
            = '\x7b' :: (nlIndent (d + 1) ++ emitMember (d + 1) (k1, v1)
              ++ emitObjTail (d + 1) kvs' ++ nlIndent d ++ ['\x7d']) from rfl]
          simp only [List.cons_append, List.append_assoc, List.singleton_append]
          rw [parseValue_lbrace, skipWs_nlIndent, skipWs_emitMember]
          rw [headIs_emitMember_rbrace]
          simp only [Bool.false_eq_true, if_false]
          rw [ihM k1 v1 (d + 1) _ hx.1 hwf0.2.1 (numContinues_emitObjTail (d + 1) d kvs' _)]
          have hO := ihO kvs' [(k1, v1)] (d + 1) d rest hx.2 hwf0.2.2 hnd'
            (by
              intro k hk
              simp only [List.map_cons, List.map_nil, List.mem_singleton]
              intro heq
              subst heq
              exact hk1 hk)
          simp only [List.nil_append]
          simp [setKey, hO]
    refine ⟨hV, ?_, ?_, ?_⟩
    · intro k v d rest hsize hwf hrest
      have hlen : k.data.length
          < (escapeList k.data ++ '"' :: ':' :: ' ' :: (emitJson d v ++ rest)).length := by
        have := length_le_escapeList k.data
        simp only [List.length_append, List.length_cons]
        omega
      have hps := parseStringBody_escapeList k.data
        (escapeList k.data ++ '"' :: ':' :: ' ' :: (emitJson d v ++ rest)).length
        (':' :: ' ' :: (emitJson d v ++ rest)) hlen
      rw [emitMember_eq_cons]
      simp only [List.cons_append, List.append_assoc, List.singleton_append,
        List.nil_append]
      rw [parseMember_quote, hps]
      have hval := ihV v d rest (by omega) hwf hrest
      simp [skipWs, isJsonWs, skipWs_emitJson, hval]
    · intro xs acc d d0 rest hsize hwf
      cases xs with
      | nil =>
        rw [show emitArrTail d [] = [] from rfl]
        simp only [List.nil_append]
        rw [parseArrayTail_close f acc _ rest
          (by rw [skipWs_nlIndent, skipWs_cons_not_ws _ _ (by decide)])]
        simp
      | cons y ys =>
        have hy : jsize y ≤ f ∧ lsize ys ≤ f := by
          simp only [lsize] at hsize
          omega
        have hwf' : wfJ y = true ∧ wfElems ys = true := by
          simp only [wfElems, Bool.and_eq_true] at hwf
          exact hwf
        rw [show emitArrTail d (y :: ys)
          = ',' :: (nlIndent d ++ emitJson d y ++ emitArrTail d ys) from rfl]
        simp only [List.cons_append, List.append_assoc]
        rw [parseArrayTail_comma f acc _ _ (skipWs_cons_not_ws _ _ (by decide))]
        rw [skipWs_nlIndent, skipWs_emitJson]
        rw [ihV y d _ hy.1 hwf'.1 (numContinues_emitArrTail d d0 ys _)]
        simp [ihA ys (y :: acc) d d0 rest hy.2 hwf'.2]
    · intro kvs acc d d0 rest hsize hwf hnd hdisj
      cases kvs with
      | nil =>
        rw [show emitObjTail d [] = [] from rfl]
        simp only [List.nil_append]
        rw [parseObjectTail_close f acc _ rest
          (by rw [skipWs_nlIndent, skipWs_cons_not_ws _ _ (by decide)])]
        simp
      | cons kv kvs' =>
        obtain ⟨k2, v2⟩ := kv
        have hk : 1 + jsize v2 ≤ f ∧ msize kvs' ≤ f := by
          simp only [msize] at hsize
          have h1 := one_le_msize kvs'
          omega
        have hwf' : wfJ v2 = true ∧ wfMembers kvs' = true := by
          simp only [wfMembers, Bool.and_eq_true] at hwf
          exact hwf
        have hnd2 := strNodup_cons k2 (kvs'.map Prod.fst) (by simpa using hnd)
        have hk2acc : k2 ∉ acc.map Prod.fst := hdisj k2 (by simp)
        rw [show emitObjTail d ((k2, v2) :: kvs')
          = ',' :: (nlIndent d ++ emitMember d (k2, v2) ++ emitObjTail d kvs') from rfl]
        simp only [List.cons_append, List.append_assoc]
        rw [parseObjectTail_comma f acc _ _ (skipWs_cons_not_ws _ _ (by decide))]
        rw [skipWs_nlIndent, skipWs_emitMember]
        rw [ihM k2 v2 d _ hk.1 hwf'.1 (numContinues_emitObjTail d d0 kvs' _)]
        have hO := ihO kvs' (acc ++ [(k2, v2)]) d d0 rest hk.2 hwf'.2 hnd2.2
          (by
            intro k hkmem
            simp only [List.map_append, List.map_cons, List.map_nil, List.mem_append,
              List.mem_singleton]
            rintro (hkacc | rfl)
            · exact hdisj k (by simp [hkmem]) hkacc
            · exact hnd2.1 hkmem)
        simp [setKey_of_not_mem acc k2 v2 hk2acc, hO]

/-! ### Well-formedness is preserved by the filename injection -/

theorem strNodup_iff (l : List String) : strNodup l = true ↔ l.Nodup := by
  induction l with
  | nil => simp [strNodup]
  | cons s rest ih =>
    simp only [strNodup, Bool.and_eq_true, Bool.not_eq_true', List.nodup_cons, ih]
    constructor
    · rintro ⟨h1, h2⟩
      refine ⟨fun hmem => ?_, h2⟩
      have h1x : List.elem s rest = false := h1
      rw [List.elem_iff.mpr hmem] at h1x
      simp at h1x
    · rintro ⟨h1, h2⟩
      refine ⟨?_, h2⟩
      cases hc : rest.contains s with
      | false => rfl
      | true =>
        have hcx : List.elem s rest = true := hc
        exact absurd (List.elem_iff.mp hcx) h1

theorem keys_setKey (kvs : List (String × Json)) (k : String) (v : Json) :
    (setKey kvs k v).map Prod.fst
      = if k ∈ kvs.map Prod.fst then kvs.map Prod.fst else kvs.map Prod.fst ++ [k] := by
  induction kvs with
  | nil => simp [setKey]
  | cons kv rest ih =>
    obtain ⟨k0, v0⟩ := kv
    by_cases hk : k0 = k
    · subst hk
      simp [setKey]
    · have hkk : (k = k0) ↔ False := ⟨fun he => hk he.symm, False.elim⟩
      simp only [setKey, if_neg hk, List.map_cons, ih, List.mem_cons, hkk, false_or]
      by_cases hmem : k ∈ rest.map Prod.fst
      · simp [hmem]
      · simp [hmem]

theorem wfMembers_setKey (kvs : List (String × Json)) (k : String) (v : Json)
    (hm : wfMembers kvs = true) (hv : wfJ v = true) :
    wfMembers (setKey kvs k v) = true := by
  induction kvs with
  | nil => simp [setKey, wfMembers, hv]
  | cons kv rest ih =>
    obtain ⟨k0, v0⟩ := kv
    simp only [wfMembers, Bool.and_eq_true] at hm
    by_cases hk : k0 = k
    · subst hk
      simp [setKey, wfMembers, hv, hm.2]
    · simp only [setKey, if_neg hk, wfMembers, Bool.and_eq_true]
      exact ⟨hm.1, ih hm.2⟩

theorem wfJ_inject (r : Json) (n : String) (h : wfJ r = true) :
    wfJ (json_inject_filename r n) = true := by
  cases r with
  | obj kvs =>
    simp only [json_inject_filename, wfJ, Bool.and_eq_true] at h ⊢
    refine ⟨?_, wfMembers_setKey kvs "filename" (Json.str n) h.2 rfl⟩
    rw [strNodup_iff] at h ⊢
    rw [keys_setKey]
    split
    · exact h.1
    · rename_i hmem
      rw [List.nodup_append]
      refine ⟨h.1, by simp, ?_⟩
      intro a ha hak
      rw [List.mem_singleton] at hak
      subst hak
      exact hmem ha
  | null => exact h
  | bool b => exact h
  | num m => exact h
  | str s => exact h
  | arr xs => exact h

theorem wfElems_of_forall (xs : List Json) (h : ∀ x ∈ xs, wfJ x = true) :
    wfElems xs = true := by
  induction xs with
  | nil => rfl
  | cons x rest ih =>
    simp only [wfElems, Bool.and_eq_true]
    exact ⟨h x (List.mem_cons_self _ _), ih fun y hy => h y (List.mem_cons_of_mem _ hy)⟩

theorem getKey_setKey_self (kvs : List (String × Json)) (k : String) (v : Json) :
    getKey (setKey kvs k v) k = some v := by
  induction kvs with
  | nil => simp [setKey, getKey]
  | cons kv rest ih =>
    obtain ⟨k0, v0⟩ := kv
    by_cases hk : k0 = k
    · subst hk
      simp [setKey, getKey]
    · simp [setKey, getKey, hk, ih]

/-- Full-document round trip for any well-formed value: `json.loads` applied
to `json.dumps(v, indent=2)` returns exactly `v`. -/
theorem json_loads_dumps (v : Json) (h : wfJ v = true) :
    json_loads (json_dumps_indent2 v) = some v := by
  have hskip : skipWs (emitJson 0 v) = emitJson 0 v := by
    have := skipWs_emitJson 0 v []
    simpa using this
  have hsize : jsize v ≤ (emitJson 0 v).length + 1 := by
    have := jsize_le_emitJson 0 v
    omega
  have hP := (parse_emit_roundtrip ((emitJson 0 v).length + 1)).1 v 0 [] hsize h rfl
  rw [List.append_nil] at hP
  have hdata : (String.mk (emitJson 0 v)).data = emitJson 0 v := rfl
  simp [json_loads, json_dumps_indent2, hdata, hskip, hP, skipWs]

/-- C8: the batch export `json.dumps(all_results, indent=2)` round-trips:
parsing the exported text with `json.loads` reproduces the original result
sequence exactly, including the `filename` entry the orchestrator injected
into each result; and that entry is present in every exported result,
holding the document's original name. The hypothesis states what the
analyzer's Python values guarantee: each raw result is a dict, and no dict
holds a key twice. -/
theorem c8_json_export_roundtrip (pairs : List (Json × String))
    (h : ∀ p ∈ pairs, wfJ p.1 = true ∧ isObjB p.1 = true) :
    json_loads (json_batch_data (pairs.map fun p => json_inject_filename p.1 p.2))
        = some (Json.arr (pairs.map fun p => json_inject_filename p.1 p.2))
      ∧ ∀ p ∈ pairs, lookup_filename (json_inject_filename p.1 p.2)
          = some (Json.str p.2) := by
  constructor
  · have hwf : wfJ (Json.arr (pairs.map fun p => json_inject_filename p.1 p.2)) = true := by
      rw [show wfJ (Json.arr (pairs.map fun p => json_inject_filename p.1 p.2))
        = wfElems (pairs.map fun p => json_inject_filename p.1 p.2) from rfl]
      refine wfElems_of_forall _ ?_
      intro x hx
      simp only [List.mem_map] at hx
      obtain ⟨p, hp, rfl⟩ := hx
      exact wfJ_inject p.1 p.2 (h p hp).1
    exact json_loads_dumps _ hwf
  · intro p hp
    have hobj : isObjB p.1 = true := (h p hp).2
    obtain ⟨kvs, hkvs⟩ : ∃ kvs, p.1 = Json.obj kvs := by
      cases hx : p.1 <;> simp [hx, isObjB] at hobj ⊢
    rw [hkvs]
    simp only [json_inject_filename, lookup_filename]
    exact getKey_setKey_self kvs "filename" (Json.str p.2)

/-- Witness data for `c8_json_export_roundtrip`: one analyzer result dict
with its original filename. -/
def c8_witness_pairs : List (Json × String) :=
  [(Json.obj [("profession", Json.str "Data Scientist"),
     ("relevance_score", Json.num 87)], "cv1.pdf")]

theorem c8_json_export_roundtrip_witness :
    (∀ p ∈ c8_witness_pairs, wfJ p.1 = true ∧ isObjB p.1 = true)
      ∧ (json_loads (json_batch_data
            (c8_witness_pairs.map fun p => json_inject_filename p.1 p.2))
          = some (Json.arr (c8_witness_pairs.map fun p => json_inject_filename p.1 p.2))
        ∧ ∀ p ∈ c8_witness_pairs, lookup_filename (json_inject_filename p.1 p.2)
            = some (Json.str p.2)) :=
  ⟨by decide, c8_json_export_roundtrip c8_witness_pairs (by decide)⟩

end CVApp
